import Mathlib

/-!
Verification of the aggregation core of the `llm-deliberate` repository
(`backend/aggregation.py`), shallowly embedded in Lean 4.

Python dictionaries with string keys are embedded as association lists
`List (String × ℚ)` in insertion order (Python dicts preserve insertion
order); `dict.fromkeys` deduplicates keys keeping the first occurrence,
which `pyDedup` mirrors.  Python floats are embedded as exact rationals.
The judge-by-judge agreement matrix (a dict of dicts whose cells are
overwritten in place) is embedded as a total function
`String → String → ℚ` updated pointwise, together with `judgesOf`, the
embedding of its key set.  Python `set`s of locked edges are embedded
as duplicate-free lists in insertion order.
-/

namespace Deliberate

/-- Embedding of the `Ranking` pydantic model (`backend/models.py`):
only the fields the aggregation core reads are kept (`id`, `judge`,
`rankings`, `confidence`); `reasoning`, timestamps and `source` are
never consumed by `aggregation.py`. -/
structure Ranking where
  id : String
  judge : String
  rankings : List String
  confidence : ℚ
deriving DecidableEq

/-- Key deduplication keeping the first occurrence, with an explicit
seen-set accumulator. -/
def pyDedupAux (seen : List String) : List String → List String
  | [] => []
  | c :: cs => if c ∈ seen then pyDedupAux seen cs else c :: pyDedupAux (c :: seen) cs

/-- Key deduplication keeping the first occurrence, as Python's
`dict.fromkeys` / dict comprehensions do. -/
def pyDedup (l : List String) : List String := pyDedupAux [] l

/-- Keys of an association list, in order. -/
def keysOf (m : List (String × ℚ)) : List String := m.map Prod.fst

/-- Python's `k in d` membership test on a dict. -/
def containsKey (m : List (String × ℚ)) (k : String) : Bool :=
  m.any (fun kv => kv.1 = k)

/-- Dictionary lookup, defaulting to 0 (all reads in the source are
either guarded by membership or hit keys present by construction). -/
def getD (m : List (String × ℚ)) (k : String) : ℚ :=
  match m.find? (fun kv => kv.1 = k) with
  | some kv => kv.2
  | none => 0

/-- `d[k] += x` on a dict whose key `k` may or may not be present
(when absent this is the identity; the source only executes it on
present keys). -/
def updAdd (m : List (String × ℚ)) (k : String) (x : ℚ) : List (String × ℚ) :=
  m.map (fun kv => if kv.1 = k then (kv.1, kv.2 + x) else kv)

/-- `dict.fromkeys(candidates, v)`. -/
def fromkeys (cs : List String) (v : ℚ) : List (String × ℚ) :=
  (pyDedup cs).map (fun c => (c, v))

/-- Sum of the values of a score map (`sum(scores.values())`). -/
def sumValues (m : List (String × ℚ)) : ℚ := (m.map Prod.snd).sum

/-- All ordered pairs `(l[i], l[j])` with `i < j`, in the iteration
order of the Python idiom
`for i, c1 in enumerate(l): for c2 in l[i+1:]`. -/
def upairs {α : Type} : List α → List (α × α)
  | [] => []
  | x :: xs => xs.map (fun y => (x, y)) ++ upairs xs

/-! ### Scoring methods (`plurality`, `borda_count`, `weighted_borda`) -/

/-- `plurality(rankings, candidates)`: count first-place votes, then
restrict/pad to the candidate set. -/
def plurality (rankings : List Ranking) (candidates : List String) :
    List (String × ℚ) :=
  let first_places := rankings.filterMap (fun r => r.rankings.head?)
  (pyDedup candidates).map (fun c => (c, (first_places.count c : ℚ)))

/-- One step of the Borda inner loop: position `pc.1` (0-indexed) of
candidate `pc.2` is worth `n - 1 - pc.1` points (an integer, possibly
negative when an order is longer than the candidate list), scaled by
`w` (the confidence weight; `1` for plain Borda). -/
def bordaStep (n : Nat) (w : ℚ) (s : List (String × ℚ)) (pc : Nat × String) :
    List (String × ℚ) :=
  if containsKey s pc.2 then
    s.map (fun kv => if kv.1 = pc.2 then
      (kv.1, kv.2 + (((n : ℤ) - 1 - (pc.1 : ℤ) : ℤ) : ℚ) * w) else kv)
  else s

/-- `borda_count(rankings, candidates)`. -/
def borda_count (rankings : List Ranking) (candidates : List String) :
    List (String × ℚ) :=
  rankings.foldl (fun scores r => r.rankings.enum.foldl (bordaStep candidates.length 1) scores)
    (fromkeys candidates 0)

/-- `weighted_borda(rankings, candidates)`: Borda with each ranking's
points multiplied by its confidence, taken verbatim. -/
def weighted_borda (rankings : List Ranking) (candidates : List String) :
    List (String × ℚ) :=
  rankings.foldl
    (fun scores r => r.rankings.enum.foldl (bordaStep candidates.length r.confidence) scores)
    (fromkeys candidates 0)

/-! ### Pairwise comparison and Copeland -/

/-- `_count_pairwise_preferences(rankings, c1, c2)`: among rankings
mentioning both candidates, count those placing `c1` strictly before
`c2` and vice versa (`.index` finds the first occurrence). -/
def count_pairwise_preferences (rankings : List Ranking) (c1 c2 : String) :
    Nat × Nat :=
  rankings.foldl (fun acc r =>
    if c1 ∈ r.rankings ∧ c2 ∈ r.rankings then
      if r.rankings.indexOf c1 < r.rankings.indexOf c2 then (acc.1 + 1, acc.2)
      else if r.rankings.indexOf c2 < r.rankings.indexOf c1 then (acc.1, acc.2 + 1)
      else acc
    else acc) (0, 0)

/-- `_award_pairwise_points(wins, c1, c2, c1_preferred, c2_preferred)`:
the pairwise winner gets 1 point; a tie (including 0-0) gives each side
half a point. -/
def award_pairwise_points (wins : List (String × ℚ)) (c1 c2 : String)
    (c1_preferred c2_preferred : Nat) : List (String × ℚ) :=
  if c1_preferred > c2_preferred then updAdd wins c1 1
  else if c2_preferred > c1_preferred then updAdd wins c2 1
  else updAdd (updAdd wins c1 (1/2)) c2 (1/2)

/-- `copeland_score(rankings, candidates)`. -/
def copeland_score (rankings : List Ranking) (candidates : List String) :
    List (String × ℚ) :=
  (upairs candidates).foldl (fun wins p =>
    let counts := count_pairwise_preferences rankings p.1 p.2
    award_pairwise_points wins p.1 p.2 counts.1 counts.2)
    (fromkeys candidates 0)

/-! ### Ranked pairs -/

/-- Lookup into the nested pairwise-preference matrix. -/
def getPref (pref : List (String × List (String × Nat))) (c1 c2 : String) : Nat :=
  match pref.find? (fun row => row.1 = c1) with
  | some row =>
    match row.2.find? (fun kv => kv.1 = c2) with
    | some kv => kv.2
    | none => 0
  | none => 0

/-- Membership of `c1` as a row key and of `c2` in that row
(`c1 in pref and c2 in pref[c1]`). -/
def prefHasPair (pref : List (String × List (String × Nat))) (c1 c2 : String) : Bool :=
  match pref.find? (fun row => row.1 = c1) with
  | some row => row.2.any (fun kv => kv.1 = c2)
  | none => false

/-- `pref[c1][c2] += 1` on the nested matrix. -/
def bumpPref (pref : List (String × List (String × Nat))) (c1 c2 : String) :
    List (String × List (String × Nat)) :=
  pref.map (fun row => if row.1 = c1 then
    (row.1, row.2.map (fun kv => if kv.1 = c2 then (kv.1, kv.2 + 1) else kv))
    else row)

/-- `_build_preference_matrix(rankings, candidates)`: for every ordered
pair of positions `i < j` inside a ranking's order, bump the count of
`order[i]` over `order[j]`, guarded by key membership. -/
def build_preference_matrix (rankings : List Ranking) (candidates : List String) :
    List (String × List (String × Nat)) :=
  rankings.foldl (fun pref r =>
    (upairs r.rankings).foldl (fun p q =>
      if prefHasPair p q.1 q.2 then bumpPref p q.1 q.2 else p) pref)
    ((pyDedup candidates).map (fun c1 => (c1, (pyDedup candidates).map (fun c2 => (c2, 0)))))

/-- `_calculate_margin_pairs(candidates, pref)`: emit one directed edge
per unordered pair with a nonzero margin, strongest side first. -/
def calculate_margin_pairs (candidates : List String)
    (pref : List (String × List (String × Nat))) : List (String × String × Int) :=
  (upairs candidates).foldl (fun pairs p =>
    let margin : Int := (getPref pref p.1 p.2 : Int) - (getPref pref p.2 p.1 : Int)
    if margin > 0 then pairs ++ [(p.1, p.2, margin)]
    else if margin < 0 then pairs ++ [(p.2, p.1, -margin)]
    else pairs) []

/-- Successors of `current` through the locked edges
(`for w, l in locked: if w == current: queue.append(l)`). -/
def succsOf (locked : List (String × String)) (current : String) : List String :=
  (locked.filter (fun e => e.1 = current)).map Prod.snd

/-- The queue/visited loop of `_creates_cycle`, with explicit fuel
(the Python `while queue` loop; the fuel chosen in `creates_cycle` is
provably larger than the number of iterations the loop can make). -/
def bfsAux (winner : String) (locked : List (String × String)) :
    Nat → List String → List String → Bool
  | 0, _, _ => false
  | _ + 1, _, [] => false
  | fuel + 1, visited, current :: queue =>
    if current = winner then true
    else if current ∈ visited then bfsAux winner locked fuel visited queue
    else bfsAux winner locked fuel (current :: visited) (queue ++ succsOf locked current)

/-- `_creates_cycle(locked, winner, loser)`: breadth-first search for
`winner` starting from `loser` through the locked edges. -/
def creates_cycle (locked : List (String × String)) (winner loser : String) : Bool :=
  bfsAux winner locked ((locked.length + 1) * (locked.length + 1) + 2) [] [loser]

/-- `_lock_pairs_without_cycles(pairs)`: lock edges in order, skipping
any that would close a cycle.  The Python `set` of locked edges is
embedded as a duplicate-free list in insertion order. -/
def lock_pairs_without_cycles (pairs : List (String × String × Int)) :
    List (String × String) :=
  pairs.foldl (fun locked p =>
    if creates_cycle locked p.1 p.2.1 then locked
    else if (p.1, p.2.1) ∈ locked then locked
    else locked ++ [(p.1, p.2.1)]) []

/-- Stable insertion for the descending margin sort: the incoming
element (originally earlier) goes before the first element whose
margin is not larger than its own. -/
def insertPairDesc (x : String × String × Int) :
    List (String × String × Int) → List (String × String × Int)
  | [] => [x]
  | y :: ys => if y.2.2 ≤ x.2.2 then x :: y :: ys else y :: insertPairDesc x ys

/-- `pairs.sort(key=lambda x: x[2], reverse=True)`: Python's sort is
stable, so the result is the unique stable descending-by-margin
reordering, which this insertion sort computes. -/
def sortPairsDesc : List (String × String × Int) → List (String × String × Int)
  | [] => []
  | x :: xs => insertPairDesc x (sortPairsDesc xs)

/-- The locked-edge set `ranked_pairs` builds: margin pairs sorted by
margin descending (Python's stable sort), then locked cycle-free. -/
def locked_edges (rankings : List Ranking) (candidates : List String) :
    List (String × String) :=
  lock_pairs_without_cycles
    (sortPairsDesc (calculate_margin_pairs candidates (build_preference_matrix rankings candidates)))

/-- `ranked_pairs(rankings, candidates)`: each candidate scores its
number of locked victories. -/
def ranked_pairs (rankings : List Ranking) (candidates : List String) :
    List (String × ℚ) :=
  (locked_edges rankings candidates).foldl (fun scores e => updAdd scores e.1 1)
    (fromkeys candidates 0)

/-! ### Result selection -/

/-- `get_winner(scores)`: Python's `max(scores.keys(), key=...)` keeps
the first maximum encountered; the empty map yields `""`. -/
def get_winner (scores : List (String × ℚ)) : String :=
  match scores with
  | [] => ""
  | b :: rest => (rest.foldl (fun best kv => if kv.2 > best.2 then kv else best) b).1

/-- Stable insertion for `get_ranking`'s descending sort by score. -/
def insertKeyDesc (scores : List (String × ℚ)) (x : String) : List String → List String
  | [] => [x]
  | y :: ys =>
    if getD scores y ≤ getD scores x then x :: y :: ys
    else y :: insertKeyDesc scores x ys

/-- The stable descending-by-score key sort used by `get_ranking`. -/
def sortKeysDesc (scores : List (String × ℚ)) : List String → List String
  | [] => []
  | x :: xs => insertKeyDesc scores x (sortKeysDesc scores xs)

/-- `get_ranking(scores)`: keys sorted by score descending, stable
(Python's `sorted(..., reverse=True)` keeps original order on ties). -/
def get_ranking (scores : List (String × ℚ)) : List String :=
  sortKeysDesc scores (scores.map Prod.fst)

/-! ### Agreement analysis -/

/-- The `(agreements, comparisons)` accumulator of
`_calculate_pairwise_agreement`: for every unordered candidate pair
present in both orders, compare the relative orderings. -/
def agreementCounts (r1 r2 : Ranking) (candidates : List String) : Nat × Nat :=
  (upairs candidates).foldl (fun acc p =>
    if p.1 ∈ r1.rankings ∧ p.2 ∈ r1.rankings ∧ p.1 ∈ r2.rankings ∧ p.2 ∈ r2.rankings then
      if (decide (r1.rankings.indexOf p.1 < r1.rankings.indexOf p.2)
          = decide (r2.rankings.indexOf p.1 < r2.rankings.indexOf p.2)) then
        (acc.1 + 1, acc.2 + 1)
      else (acc.1, acc.2 + 1)
    else acc) (0, 0)

/-- `_calculate_pairwise_agreement(r1, r2, candidates)`: agreement
ratio, defined as 0 when there are no comparable pairs. -/
def calculate_pairwise_agreement (r1 r2 : Ranking) (candidates : List String) : ℚ :=
  let counts := agreementCounts r1 r2 candidates
  if counts.2 > 0 then (counts.1 : ℚ) / (counts.2 : ℚ) else 0

/-- The value written into cell `(r1.judge, r2.judge)` of the matrix:
identity comparison (same `id`) is short-circuited to 1. -/
def cellVal (candidates : List String) (r1 r2 : Ranking) : ℚ :=
  if r1.id = r2.id then 1 else calculate_pairwise_agreement r1 r2 candidates

/-- The key set of the Python agreement matrix:
`{j1: dict.fromkeys(judges, 0.0) for j1 in judges}` has exactly the
judges, deduplicated in encounter order. -/
def judgesOf (rankings : List Ranking) : List String :=
  pyDedup (rankings.map Ranking.judge)

/-- `agreement_matrix(rankings, candidates)`, embedded as the function
from judge pairs to cell values: every cell starts at 0 and
`matrix[r1.judge][r2.judge]` is assigned for every ordered pair of
ranking instances, later writes overwriting earlier ones exactly as in
the Python nested loops. -/
def agreement_matrix (rankings : List Ranking) (candidates : List String) :
    String → String → ℚ :=
  rankings.foldl (fun m r1 =>
    rankings.foldl (fun m r2 =>
      fun j1 j2 => if j1 = r1.judge ∧ j2 = r2.judge then cellVal candidates r1 r2
        else m j1 j2) m)
    (fun _ _ => 0)

/-- `diversity_score(rankings, candidates)`: one minus the average
off-diagonal agreement over unordered judge pairs; 0 when fewer than
two rankings or no judge pair exists. -/
def diversity_score (rankings : List Ranking) (candidates : List String) : ℚ :=
  if rankings.length < 2 then 0
  else
    let m := agreement_matrix rankings candidates
    let judges := judgesOf rankings
    let total := ((upairs judges).map (fun p => m p.1 p.2)).sum
    let count := (upairs judges).length
    if count = 0 then 0
    else 1 - total / (count : ℚ)

/-- `method_agreement(rankings, candidates)`: winner under each of the
five methods. -/
def method_agreement (rankings : List Ranking) (candidates : List String) :
    List (String × String) :=
  [("plurality", get_winner (plurality rankings candidates)),
   ("borda", get_winner (borda_count rankings candidates)),
   ("weighted_borda", get_winner (weighted_borda rankings candidates)),
   ("copeland", get_winner (copeland_score rankings candidates)),
   ("ranked_pairs", get_winner (ranked_pairs rankings candidates))]

/-! ### Reachability and acyclicity of the locked-edge digraph -/

/-- Directed reachability (reflexive-transitive closure) through an
edge list. -/
inductive Reach (S : List (String × String)) : String → String → Prop
  | refl (a : String) : Reach S a a
  | step {a b c : String} : (a, b) ∈ S → Reach S b c → Reach S a c

/-- A directed cycle: an edge whose target reaches back to its source. -/
def HasCycle (S : List (String × String)) : Prop :=
  ∃ a b, (a, b) ∈ S ∧ Reach S b a

/-- Acyclicity of an edge list. -/
def Acyclic (S : List (String × String)) : Prop := ¬ HasCycle S

/-- Predicate form of "the ranking places `c` strictly before `c2`"
(both candidates occur and the first occurrence of `c` is earlier). -/
def placedBefore (r : Ranking) (c c2 : String) : Bool :=
  decide (c ∈ r.rankings) && decide (c2 ∈ r.rankings) &&
    decide (r.rankings.indexOf c < r.rankings.indexOf c2)

/-! ## Basic lemmas about the embedding's building blocks -/

theorem mem_pyDedupAux {a : String} :
    ∀ {l seen : List String}, a ∈ pyDedupAux seen l ↔ a ∈ l ∧ a ∉ seen := by
  intro l
  induction l with
  | nil => intro seen; simp [pyDedupAux]
  | cons c cs ih =>
    intro seen
    by_cases hc : c ∈ seen
    · rw [pyDedupAux, if_pos hc, ih]
      constructor
      · rintro ⟨h1, h2⟩
        exact ⟨List.mem_cons_of_mem c h1, h2⟩
      · rintro ⟨h1, h2⟩
        rcases List.mem_cons.mp h1 with h3 | h3
        · exact absurd (h3 ▸ hc) h2
        · exact ⟨h3, h2⟩
    · rw [pyDedupAux, if_neg hc]
      by_cases hac : a = c
      · subst hac
        simp [hc]
      · simp only [List.mem_cons, hac, false_or]
        rw [ih]
        simp only [List.mem_cons, hac, false_or]

theorem mem_pyDedup {a : String} {l : List String} : a ∈ pyDedup l ↔ a ∈ l := by
  rw [pyDedup, mem_pyDedupAux]
  simp

theorem nodup_pyDedupAux :
    ∀ {l seen : List String}, (pyDedupAux seen l).Nodup := by
  intro l
  induction l with
  | nil => intro seen; simp [pyDedupAux]
  | cons c cs ih =>
    intro seen
    by_cases hc : c ∈ seen
    · rw [pyDedupAux, if_pos hc]
      exact ih
    · rw [pyDedupAux, if_neg hc, List.nodup_cons]
      refine ⟨fun hmem => ?_, ih⟩
      have := (mem_pyDedupAux.mp hmem).2
      exact this (List.mem_cons_self c seen)

theorem nodup_pyDedup {l : List String} : (pyDedup l).Nodup := nodup_pyDedupAux

theorem pyDedupAux_eq_self :
    ∀ {l seen : List String}, l.Nodup → (∀ a ∈ l, a ∉ seen) → pyDedupAux seen l = l := by
  intro l
  induction l with
  | nil => intro seen _ _; rfl
  | cons c cs ih =>
    intro seen hnd hdisj
    rw [List.nodup_cons] at hnd
    rw [pyDedupAux, if_neg (hdisj c (List.mem_cons_self c cs))]
    rw [ih hnd.2 (fun a ha => by
      intro hmem
      rcases List.mem_cons.mp hmem with h | h
      · exact hnd.1 (h ▸ ha)
      · exact hdisj a (List.mem_cons_of_mem c ha) h)]

theorem pyDedup_eq_self {l : List String} (hnd : l.Nodup) : pyDedup l = l :=
  pyDedupAux_eq_self hnd (by simp)

theorem updAdd_cons (kv : String × ℚ) (rest : List (String × ℚ)) (k : String) (x : ℚ) :
    updAdd (kv :: rest) k x
      = (if kv.1 = k then (kv.1, kv.2 + x) else kv) :: updAdd rest k x := rfl

theorem getD_cons (kv : String × ℚ) (rest : List (String × ℚ)) (k : String) :
    getD (kv :: rest) k = if kv.1 = k then kv.2 else getD rest k := by
  by_cases h : kv.1 = k
  · rw [if_pos h]
    unfold getD
    rw [List.find?_cons_of_pos _ (by simp [h])]
  · rw [if_neg h]
    unfold getD
    rw [List.find?_cons_of_neg _ (by simp [h])]

theorem containsKey_cons (kv : String × ℚ) (rest : List (String × ℚ)) (k : String) :
    containsKey (kv :: rest) k = (decide (kv.1 = k) || containsKey rest k) := by
  simp [containsKey]

theorem keysOf_updAdd (m : List (String × ℚ)) (k : String) (x : ℚ) :
    keysOf (updAdd m k x) = keysOf m := by
  induction m with
  | nil => rfl
  | cons kv rest ih =>
    rw [updAdd_cons]
    by_cases h : kv.1 = k
    · simp only [if_pos h, keysOf, List.map_cons]
      simp only [keysOf] at ih
      rw [ih]
    · simp only [if_neg h, keysOf, List.map_cons]
      simp only [keysOf] at ih
      rw [ih]

theorem containsKey_iff {m : List (String × ℚ)} {k : String} :
    containsKey m k = true ↔ k ∈ keysOf m := by
  simp only [containsKey, List.any_eq_true, keysOf, List.mem_map, decide_eq_true_eq]

theorem containsKey_updAdd (m : List (String × ℚ)) (k k' : String) (x : ℚ) :
    containsKey (updAdd m k x) k' = containsKey m k' := by
  induction m with
  | nil => rfl
  | cons kv rest ih =>
    rw [updAdd_cons]
    by_cases h : kv.1 = k
    · rw [if_pos h, containsKey_cons, containsKey_cons, ih]
    · rw [if_neg h, containsKey_cons, containsKey_cons, ih]

theorem updAdd_of_not_mem_keys {m : List (String × ℚ)} {k : String} (x : ℚ)
    (h : k ∉ keysOf m) : updAdd m k x = m := by
  induction m with
  | nil => rfl
  | cons kv rest ih =>
    simp only [keysOf, List.map_cons, List.mem_cons, not_or] at h
    have h1 : ¬ kv.1 = k := fun e => h.1 e.symm
    rw [updAdd_cons, if_neg h1, ih (by simpa [keysOf] using h.2)]

theorem getD_updAdd_self (m : List (String × ℚ)) (k : String) (x : ℚ) :
    getD (updAdd m k x) k = getD m k + (if containsKey m k then x else 0) := by
  induction m with
  | nil => simp [getD, updAdd, containsKey]
  | cons kv rest ih =>
    rw [updAdd_cons, containsKey_cons]
    by_cases h : kv.1 = k
    · rw [if_pos h, getD_cons, getD_cons, if_pos h, if_pos h]
      simp [h]
    · rw [if_neg h, getD_cons, getD_cons, if_neg h, if_neg h, ih]
      simp [h]

theorem getD_updAdd_ne (m : List (String × ℚ)) {k k' : String} (x : ℚ)
    (h : k' ≠ k) : getD (updAdd m k x) k' = getD m k' := by
  induction m with
  | nil => rfl
  | cons kv rest ih =>
    rw [updAdd_cons]
    by_cases hk : kv.1 = k
    · have h1 : ¬ kv.1 = k' := fun e => h (e ▸ hk ▸ rfl)
      rw [if_pos hk, getD_cons, getD_cons, if_neg h1]
      simp only [h1, if_false]
      exact ih
    · rw [if_neg hk, getD_cons, getD_cons]
      by_cases hk' : kv.1 = k'
      · rw [if_pos hk', if_pos hk']
      · rw [if_neg hk', if_neg hk', ih]

theorem keysOf_fromkeys (cs : List String) (v : ℚ) :
    keysOf (fromkeys cs v) = pyDedup cs := by
  unfold keysOf fromkeys
  rw [List.map_map]
  have : (Prod.fst ∘ fun c : String => (c, v)) = id := rfl
  rw [this, List.map_id]

theorem getD_const_map (l : List String) (v : ℚ) (k : String) :
    getD (l.map (fun c => (c, v))) k = if k ∈ l then v else 0 := by
  induction l with
  | nil => simp [getD]
  | cons c rest ih =>
    rw [List.map_cons, getD_cons, ih]
    by_cases h : c = k
    · simp [h]
    · have h2 : ¬ k = c := fun e => h e.symm
      simp [h, h2]

theorem getD_fromkeys (cs : List String) (v : ℚ) (k : String) :
    getD (fromkeys cs v) k = if k ∈ cs then v else 0 := by
  rw [fromkeys, getD_const_map]
  by_cases h : k ∈ cs <;> simp [h, mem_pyDedup]

theorem getD_of_mem {m : List (String × ℚ)} (hnd : (keysOf m).Nodup)
    {kv : String × ℚ} (hm : kv ∈ m) : getD m kv.1 = kv.2 := by
  induction m with
  | nil => cases hm
  | cons hd rest ih =>
    simp only [keysOf, List.map_cons, List.nodup_cons] at hnd
    rcases List.mem_cons.mp hm with h | h
    · subst h; simp [getD_cons]
    · have hne : ¬ hd.1 = kv.1 := by
        intro he
        exact hnd.1 (he ▸ List.mem_map_of_mem Prod.fst h)
      rw [getD_cons, if_neg hne]
      exact ih hnd.2 h

theorem sumValues_cons (kv : String × ℚ) (rest : List (String × ℚ)) :
    sumValues (kv :: rest) = kv.2 + sumValues rest := by
  simp [sumValues]

theorem sumValues_updAdd {m : List (String × ℚ)} {k : String} (x : ℚ)
    (hnd : (keysOf m).Nodup) (hk : k ∈ keysOf m) :
    sumValues (updAdd m k x) = sumValues m + x := by
  induction m with
  | nil => cases hk
  | cons kv rest ih =>
    simp only [keysOf, List.map_cons, List.nodup_cons] at hnd
    rw [updAdd_cons]
    by_cases h : kv.1 = k
    · have hrest : updAdd rest k x = rest :=
        updAdd_of_not_mem_keys x (by rw [← h]; exact hnd.1)
      rw [if_pos h, sumValues_cons, sumValues_cons, hrest]
      ring
    · have hk' : k ∈ keysOf rest := by
        rcases List.mem_cons.mp hk with h2 | h2
        · exact absurd h2.symm h
        · exact h2
      rw [if_neg h, sumValues_cons, sumValues_cons, ih hnd.2 hk']
      ring

theorem sumValues_const_map_zero (l : List String) :
    sumValues (l.map (fun c => (c, (0:ℚ)))) = 0 := by
  induction l with
  | nil => rfl
  | cons c rest ih =>
    rw [List.map_cons, sumValues_cons, ih]
    simp

theorem sumValues_fromkeys_zero (cs : List String) : sumValues (fromkeys cs 0) = 0 :=
  sumValues_const_map_zero (pyDedup cs)

theorem mem_upairs {α : Type} {p : α × α} :
    ∀ {l : List α}, p ∈ upairs l → p.1 ∈ l ∧ p.2 ∈ l := by
  intro l
  induction l with
  | nil => intro h; cases h
  | cons x xs ih =>
    intro hp
    rcases List.mem_append.mp hp with h | h
    · rcases List.mem_map.mp h with ⟨y, hy, he⟩
      subst he
      exact ⟨List.mem_cons_self x xs, List.mem_cons_of_mem x hy⟩
    · exact ⟨List.mem_cons_of_mem x (ih h).1, List.mem_cons_of_mem x (ih h).2⟩

theorem ne_of_mem_upairs {α : Type} {p : α × α} :
    ∀ {l : List α}, l.Nodup → p ∈ upairs l → p.1 ≠ p.2 := by
  intro l
  induction l with
  | nil => intro _ h; cases h
  | cons x xs ih =>
    intro hnd hp
    rw [List.nodup_cons] at hnd
    rcases List.mem_append.mp hp with h | h
    · rcases List.mem_map.mp h with ⟨y, hy, he⟩
      subst he
      intro he2
      simp only at he2
      exact hnd.1 (he2 ▸ hy)
    · exact ih hnd.2 h

theorem two_mul_length_upairs {α : Type} :
    ∀ (l : List α), 2 * (upairs l).length = l.length * (l.length - 1) := by
  intro l
  induction l with
  | nil => rfl
  | cons x xs ih =>
    simp only [upairs, List.length_append, List.length_map, List.length_cons,
      Nat.add_sub_cancel]
    cases hxs : xs.length with
    | zero =>
      rw [hxs] at ih
      simp only [Nat.zero_sub, Nat.mul_zero] at ih
      omega
    | succ m =>
      rw [hxs] at ih
      simp only [Nat.succ_sub_one] at ih
      ring_nf
      ring_nf at ih
      linarith [ih]

/-! ## C8: `get_winner` -/

/-- The running-maximum fold of `get_winner` (Python's `max` with a
key function keeps the current element on ties). -/
def bestOf (b : String × ℚ) (l : List (String × ℚ)) : String × ℚ :=
  l.foldl (fun best kv => if kv.2 > best.2 then kv else best) b

theorem bestOf_spec : ∀ (l : List (String × ℚ)) (b : String × ℚ),
    (bestOf b l = b ∧ ∀ kv ∈ l, kv.2 ≤ b.2)
    ∨ (∃ l1 x l2, l = l1 ++ x :: l2 ∧ bestOf b l = x ∧ b.2 < x.2
        ∧ (∀ kv ∈ l1, kv.2 < x.2) ∧ (∀ kv ∈ l2, kv.2 ≤ x.2)) := by
  intro l
  induction l with
  | nil => intro b; left; exact ⟨rfl, by simp⟩
  | cons kv t ih =>
    intro b
    by_cases h : kv.2 > b.2
    · have hb : bestOf b (kv :: t) = bestOf kv t := by
        simp [bestOf, List.foldl_cons, if_pos h]
      rcases ih kv with ⟨he, hle⟩ | ⟨l1, x, l2, hsplit, he, hlt, h1, h2⟩
      · right
        exact ⟨[], kv, t, by simp, hb.trans he, h, by simp, hle⟩
      · right
        refine ⟨kv :: l1, x, l2, by simp [hsplit], hb.trans he, lt_trans h hlt, ?_, h2⟩
        intro kv' hkv'
        rcases List.mem_cons.mp hkv' with h3 | h3
        · subst h3; exact hlt
        · exact h1 kv' h3
    · have hb : bestOf b (kv :: t) = bestOf b t := by
        simp [bestOf, List.foldl_cons, if_neg h]
      push_neg at h
      rcases ih b with ⟨he, hle⟩ | ⟨l1, x, l2, hsplit, he, hlt, h1, h2⟩
      · left
        refine ⟨hb.trans he, ?_⟩
        intro kv' hkv'
        rcases List.mem_cons.mp hkv' with h3 | h3
        · subst h3; exact h
        · exact hle kv' h3
      · right
        refine ⟨kv :: l1, x, l2, by simp [hsplit], hb.trans he, hlt, ?_, h2⟩
        intro kv' hkv'
        rcases List.mem_cons.mp hkv' with h3 | h3
        · subst h3; exact lt_of_le_of_lt h hlt
        · exact h1 kv' h3

/-- C8: `get_winner` returns `""` on the empty score map; on a
non-empty map it returns the key of the first entry attaining the
maximum value: the map splits as `pre ++ (w, m) :: post` with every
entry of `pre` strictly below `m` and every entry at most `m`. -/
theorem get_winner_spec (scores : List (String × ℚ)) :
    (scores = [] → get_winner scores = "")
    ∧ (scores ≠ [] → ∃ pre w m post, scores = pre ++ (w, m) :: post
        ∧ get_winner scores = w
        ∧ (∀ kv ∈ pre, kv.2 < m) ∧ (∀ kv ∈ scores, kv.2 ≤ m)) := by
  constructor
  · intro h; rw [h]; rfl
  · intro hne
    match scores with
    | [] => exact absurd rfl hne
    | b :: rest =>
      have hw : get_winner (b :: rest) = (bestOf b rest).1 := rfl
      rcases bestOf_spec rest b with ⟨he, hle⟩ | ⟨l1, x, l2, hsplit, he, hlt, h1, h2⟩
      · refine ⟨[], b.1, b.2, rest, by simp, by rw [hw, he], by simp, ?_⟩
        intro kv hkv
        rcases List.mem_cons.mp hkv with h3 | h3
        · subst h3; exact le_refl _
        · exact hle kv h3
      · refine ⟨b :: l1, x.1, x.2, l2, by simp [hsplit], by rw [hw, he], ?_, ?_⟩
        · intro kv hkv
          rcases List.mem_cons.mp hkv with h3 | h3
          · subst h3; exact hlt
          · exact h1 kv h3
        · intro kv hkv
          rcases List.mem_cons.mp hkv with h3 | h3
          · subst h3; exact le_of_lt hlt
          · rw [hsplit] at h3
            rcases List.mem_append.mp h3 with h4 | h4
            · exact le_of_lt (h1 kv h4)
            · rcases List.mem_cons.mp h4 with h5 | h5
              · subst h5; exact le_refl _
              · exact h2 kv h5

/-- Witness for C8 at a concrete tied input: the first maximum wins. -/
theorem get_winner_spec_witness :
    ∃ pre w m post,
      ([("a", (1:ℚ)), ("b", 2), ("c", 2)] : List (String × ℚ)) = pre ++ (w, m) :: post
      ∧ get_winner [("a", (1:ℚ)), ("b", 2), ("c", 2)] = w
      ∧ (∀ kv ∈ pre, kv.2 < m)
      ∧ (∀ kv ∈ ([("a", (1:ℚ)), ("b", 2), ("c", 2)] : List (String × ℚ)), kv.2 ≤ m) :=
  (get_winner_spec [("a", (1:ℚ)), ("b", 2), ("c", 2)]).2 (by simp)

/-! ## Borda machinery (C9, C3) -/

/-- The positional value `n - 1 - position` as a rational. -/
def bordaVal (n : Nat) (pc : Nat × String) : ℚ := (((n : ℤ) - 1 - (pc.1 : ℤ) : ℤ) : ℚ)

theorem bordaStep_eq (n : Nat) (w : ℚ) (s : List (String × ℚ)) (pc : Nat × String) :
    bordaStep n w s pc
      = if containsKey s pc.2 then updAdd s pc.2 (bordaVal n pc * w) else s := rfl

/-- Total positional credit an enumerated order gives to candidate `c`. -/
def bordaContrib (n : Nat) (ps : List (Nat × String)) (c : String) : ℚ :=
  ((ps.filter (fun pc => pc.2 = c)).map (bordaVal n)).sum

theorem keysOf_bordaStep (n : Nat) (w : ℚ) (s : List (String × ℚ)) (pc : Nat × String) :
    keysOf (bordaStep n w s pc) = keysOf s := by
  rw [bordaStep_eq]
  by_cases h : containsKey s pc.2
  · rw [if_pos h, keysOf_updAdd]
  · rw [if_neg h]

theorem keysOf_bordaFold (n : Nat) (w : ℚ) :
    ∀ (ps : List (Nat × String)) (s : List (String × ℚ)),
      keysOf (ps.foldl (bordaStep n w) s) = keysOf s := by
  intro ps
  induction ps with
  | nil => intro s; rfl
  | cons pc t ih =>
    intro s
    rw [List.foldl_cons, ih, keysOf_bordaStep]

theorem containsKey_congr_keys {m m' : List (String × ℚ)} (h : keysOf m = keysOf m')
    (k : String) : containsKey m k = containsKey m' k := by
  cases hc : containsKey m' k with
  | false =>
    cases hc2 : containsKey m k with
    | false => rfl
    | true =>
      have h1 : k ∈ keysOf m' := h ▸ containsKey_iff.mp hc2
      rw [containsKey_iff.mpr h1] at hc
      simp at hc
  | true => exact containsKey_iff.mpr (h ▸ containsKey_iff.mp hc)

theorem getD_bordaFold (n : Nat) (w : ℚ) :
    ∀ (ps : List (Nat × String)) (s : List (String × ℚ)) (c : String),
      getD (ps.foldl (bordaStep n w) s) c
        = getD s c + (if containsKey s c then bordaContrib n ps c * w else 0) := by
  intro ps
  induction ps with
  | nil =>
    intro s c
    simp [bordaContrib]
  | cons pc t ih =>
    intro s c
    rw [List.foldl_cons, ih]
    have hkeys : containsKey (bordaStep n w s pc) c = containsKey s c :=
      containsKey_congr_keys (keysOf_bordaStep n w s pc) c
    rw [hkeys, bordaStep_eq]
    by_cases hmem : containsKey s pc.2
    · rw [if_pos hmem]
      by_cases hc : pc.2 = c
      · subst hc
        rw [getD_updAdd_self, if_pos hmem, if_pos hmem, if_pos hmem]
        have hcontrib : bordaContrib n (pc :: t) pc.2
            = bordaVal n pc + bordaContrib n t pc.2 := by
          simp [bordaContrib, List.filter_cons]
        rw [hcontrib]
        ring
      · have hcne : c ≠ pc.2 := fun e => hc e.symm
        rw [getD_updAdd_ne _ _ hcne]
        have hcontrib : bordaContrib n (pc :: t) c = bordaContrib n t c := by
          simp [bordaContrib, List.filter_cons, hc]
        rw [hcontrib]
    · rw [if_neg hmem]
      by_cases hc : pc.2 = c
      · subst hc
        rw [if_neg hmem, if_neg hmem]
      · have hcontrib : bordaContrib n (pc :: t) c = bordaContrib n t c := by
          simp [bordaContrib, List.filter_cons, hc]
        rw [hcontrib]

theorem keysOf_bordaOuter (n : Nat) (wf : Ranking → ℚ) :
    ∀ (rs : List Ranking) (s : List (String × ℚ)),
      keysOf (rs.foldl (fun scores r => r.rankings.enum.foldl (bordaStep n (wf r)) scores) s)
        = keysOf s := by
  intro rs
  induction rs with
  | nil => intro s; rfl
  | cons r t ih =>
    intro s
    rw [List.foldl_cons, ih, keysOf_bordaFold]

theorem getD_bordaOuter (n : Nat) (wf : Ranking → ℚ) :
    ∀ (rs : List Ranking) (s : List (String × ℚ)) (c : String),
      getD (rs.foldl (fun scores r => r.rankings.enum.foldl (bordaStep n (wf r)) scores) s) c
        = getD s c + (if containsKey s c then
            ((rs.map (fun r => bordaContrib n r.rankings.enum c * wf r)).sum) else 0) := by
  intro rs
  induction rs with
  | nil =>
    intro s c
    simp
  | cons r t ih =>
    intro s c
    rw [List.foldl_cons, ih]
    have hkeys : containsKey (r.rankings.enum.foldl (bordaStep n (wf r)) s) c
        = containsKey s c :=
      containsKey_congr_keys (keysOf_bordaFold n (wf r) r.rankings.enum s) c
    rw [hkeys, getD_bordaFold]
    by_cases hc : containsKey s c
    · rw [if_pos hc, if_pos hc, if_pos hc, List.map_cons, List.sum_cons]
      ring
    · rw [if_neg hc, if_neg hc, if_neg hc]
      ring

theorem getD_fromkeys_zero (cs : List String) (c : String) :
    getD (fromkeys cs 0) c = 0 := by
  rw [getD_fromkeys]
  by_cases h : c ∈ cs <;> simp [h]

/-- Characterization of a Borda-style score in terms of per-ranking
contributions. -/
theorem getD_weighted_borda (rankings : List Ranking) (candidates : List String)
    (c : String) :
    getD (weighted_borda rankings candidates) c
      = if c ∈ candidates then
          ((rankings.map (fun r =>
            bordaContrib candidates.length r.rankings.enum c * r.confidence)).sum)
        else 0 := by
  have h := getD_bordaOuter candidates.length Ranking.confidence rankings
    (fromkeys candidates 0) c
  have he : weighted_borda rankings candidates
      = rankings.foldl
          (fun scores r =>
            r.rankings.enum.foldl (bordaStep candidates.length (Ranking.confidence r)) scores)
          (fromkeys candidates 0) := rfl
  rw [he, h, getD_fromkeys_zero, zero_add]
  have hck : containsKey (fromkeys candidates 0) c = decide (c ∈ candidates) := by
    cases hd : decide (c ∈ candidates)
    · have : ¬ c ∈ candidates := of_decide_eq_false hd
      cases hc : containsKey (fromkeys candidates 0) c
      · rfl
      · exact absurd (by
          have := containsKey_iff.mp hc
          rw [keysOf_fromkeys] at this
          exact mem_pyDedup.mp this) this
    · have : c ∈ candidates := of_decide_eq_true hd
      exact containsKey_iff.mpr (by rw [keysOf_fromkeys]; exact mem_pyDedup.mpr this)
  rw [hck]
  by_cases h2 : c ∈ candidates <;> simp [h2]

theorem getD_borda_count (rankings : List Ranking) (candidates : List String)
    (c : String) :
    getD (borda_count rankings candidates) c
      = if c ∈ candidates then
          ((rankings.map (fun r => bordaContrib candidates.length r.rankings.enum c)).sum)
        else 0 := by
  have h := getD_bordaOuter candidates.length (fun _ => (1:ℚ)) rankings
    (fromkeys candidates 0) c
  have he : borda_count rankings candidates
      = rankings.foldl
          (fun scores r =>
            r.rankings.enum.foldl (bordaStep candidates.length ((fun _ => (1:ℚ)) r)) scores)
          (fromkeys candidates 0) := rfl
  rw [he, h, getD_fromkeys_zero, zero_add]
  have hck : containsKey (fromkeys candidates 0) c = decide (c ∈ candidates) := by
    cases hd : decide (c ∈ candidates)
    · have : ¬ c ∈ candidates := of_decide_eq_false hd
      cases hc : containsKey (fromkeys candidates 0) c
      · rfl
      · exact absurd (by
          have := containsKey_iff.mp hc
          rw [keysOf_fromkeys] at this
          exact mem_pyDedup.mp this) this
    · have : c ∈ candidates := of_decide_eq_true hd
      exact containsKey_iff.mpr (by rw [keysOf_fromkeys]; exact mem_pyDedup.mpr this)
  rw [hck]
  by_cases h2 : c ∈ candidates <;> simp [h2]

/-- C9: weighted Borda refines Borda: with all confidences equal to 1
(the model's default) `weighted_borda` coincides with `borda_count`,
and in general each preference's contribution to a candidate's
weighted score is its `borda_count` contribution (computed from that
single preference) multiplied by its confidence, taken verbatim. -/
theorem weighted_borda_refines_borda (rankings : List Ranking) (candidates : List String) :
    ((∀ r ∈ rankings, r.confidence = 1) →
      weighted_borda rankings candidates = borda_count rankings candidates)
    ∧ (∀ c : String,
        getD (weighted_borda rankings candidates) c
          = ((rankings.map (fun r =>
              r.confidence * getD (borda_count [r] candidates) c)).sum)) := by
  constructor
  · intro hconf
    unfold weighted_borda borda_count
    apply List.foldl_ext
    intro s r hr
    rw [hconf r hr]
  · intro c
    rw [getD_weighted_borda]
    have hsingle : ∀ r : Ranking,
        getD (borda_count [r] candidates) c
          = if c ∈ candidates then bordaContrib candidates.length r.rankings.enum c
            else 0 := by
      intro r
      rw [getD_borda_count]
      by_cases h : c ∈ candidates <;> simp [h]
    by_cases h : c ∈ candidates
    · rw [if_pos h]
      apply congrArg List.sum
      apply List.map_congr_left
      intro r _
      rw [hsingle r, if_pos h]
      ring
    · rw [if_neg h]
      symm
      apply List.sum_eq_zero
      intro x hx
      rcases List.mem_map.mp hx with ⟨r, _, he⟩
      rw [← he, hsingle r, if_neg h, mul_zero]

/-- Witness for C9: with default confidence 1, the two methods agree
on a concrete input. -/
theorem weighted_borda_refines_borda_witness :
    weighted_borda [⟨"1", "a", ["x", "y"], 1⟩, ⟨"2", "b", ["y", "x"], 1⟩] ["x", "y"]
      = borda_count [⟨"1", "a", ["x", "y"], 1⟩, ⟨"2", "b", ["y", "x"], 1⟩] ["x", "y"] :=
  (weighted_borda_refines_borda
    [⟨"1", "a", ["x", "y"], 1⟩, ⟨"2", "b", ["y", "x"], 1⟩] ["x", "y"]).1 (by decide)

/-! ## C3: Borda total invariant -/

theorem sumValues_bordaFold (n : Nat) (w : ℚ) :
    ∀ (ps : List (Nat × String)) (s : List (String × ℚ)),
      (keysOf s).Nodup → (∀ pc ∈ ps, pc.2 ∈ keysOf s) →
      sumValues (ps.foldl (bordaStep n w) s)
        = sumValues s + ((ps.map (fun pc => bordaVal n pc * w)).sum) := by
  intro ps
  induction ps with
  | nil => intro s _ _; simp
  | cons pc t ih =>
    intro s hnd hall
    have hmem : pc.2 ∈ keysOf s := hall pc (List.mem_cons_self pc t)
    have hck : containsKey s pc.2 = true := containsKey_iff.mpr hmem
    rw [List.foldl_cons, bordaStep_eq, if_pos hck]
    have hkeys : keysOf (updAdd s pc.2 (bordaVal n pc * w)) = keysOf s :=
      keysOf_updAdd s pc.2 _
    rw [ih (updAdd s pc.2 (bordaVal n pc * w)) (hkeys ▸ hnd)
        (fun pc' hpc' => hkeys ▸ hall pc' (List.mem_cons_of_mem pc hpc'))]
    rw [sumValues_updAdd _ hnd hmem, List.map_cons, List.sum_cons]
    ring

theorem sumValues_bordaOuter (n : Nat) (wf : Ranking → ℚ) :
    ∀ (rs : List Ranking) (s : List (String × ℚ)),
      (keysOf s).Nodup → (∀ r ∈ rs, ∀ pc ∈ r.rankings.enum, pc.2 ∈ keysOf s) →
      sumValues (rs.foldl (fun scores r => r.rankings.enum.foldl (bordaStep n (wf r)) scores) s)
        = sumValues s
          + ((rs.map (fun r =>
              ((r.rankings.enum.map (fun pc => bordaVal n pc * wf r)).sum))).sum) := by
  intro rs
  induction rs with
  | nil => intro s _ _; simp
  | cons r t ih =>
    intro s hnd hall
    rw [List.foldl_cons]
    have hkeys : keysOf (r.rankings.enum.foldl (bordaStep n (wf r)) s) = keysOf s :=
      keysOf_bordaFold n (wf r) r.rankings.enum s
    rw [ih _ (hkeys ▸ hnd)
        (fun r' hr' pc hpc => hkeys ▸ hall r' (List.mem_cons_of_mem r hr') pc hpc)]
    rw [sumValues_bordaFold n (wf r) r.rankings.enum s hnd
        (fun pc hpc => hall r (List.mem_cons_self r t) pc hpc)]
    rw [List.map_cons, List.sum_cons]
    ring

theorem list_range_map_sum (f : ℕ → ℚ) :
    ∀ n : ℕ, ((List.range n).map f).sum = ∑ i in Finset.range n, f i := by
  intro n
  induction n with
  | zero => simp
  | succ m ih =>
    rw [List.range_succ, List.map_append, List.sum_append, Finset.sum_range_succ, ih]
    simp

theorem range_val_sum (n : Nat) :
    ((List.range n).map (fun p : ℕ => (((n : ℤ) - 1 - (p : ℤ) : ℤ) : ℚ))).sum
      = ((n * (n - 1) / 2 : ℕ) : ℚ) := by
  cases n with
  | zero => simp
  | succ m =>
    rw [list_range_map_sum]
    have hcast : ∀ i ∈ Finset.range (m + 1),
        ((((m + 1 : ℕ) : ℤ) - 1 - (i : ℤ) : ℤ) : ℚ) = (((m - i : ℕ)) : ℚ) := by
      intro i hi
      have hile : i ≤ m := Nat.lt_succ_iff.mp (Finset.mem_range.mp hi)
      push_cast [Nat.cast_sub hile]
      ring
    rw [Finset.sum_congr rfl hcast, ← Nat.cast_sum]
    have hrefl : ∑ i in Finset.range (m + 1), (m - i) = ∑ i in Finset.range (m + 1), i := by
      have h := Finset.sum_range_reflect (fun i => i) (m + 1)
      simpa using h
    rw [hrefl, Finset.sum_range_id]

theorem sum_map_constant {α : Type} : ∀ (l : List α) (k : ℚ),
    (l.map (fun _ => k)).sum = (l.length : ℚ) * k := by
  intro l
  induction l with
  | nil => intro k; simp
  | cons x t ih =>
    intro k
    rw [List.map_cons, List.sum_cons, ih, List.length_cons]
    push_cast
    ring

theorem mem_of_mem_enum {α : Type} {pc : ℕ × α} {l : List α}
    (h : pc ∈ l.enum) : pc.2 ∈ l := by
  have hmap : l.enum.map Prod.snd = l := List.enum_map_snd l
  exact hmap ▸ List.mem_map_of_mem Prod.snd h

/-- C3: when every ranking's order is a permutation of the n distinct
candidates, the Borda scores total `numPreferences * n*(n-1)/2`. -/
theorem borda_total (rankings : List Ranking) (candidates : List String)
    (hnd : candidates.Nodup)
    (hperm : ∀ r ∈ rankings, r.rankings.Perm candidates) :
    sumValues (borda_count rankings candidates)
      = (rankings.length : ℚ)
        * ((candidates.length * (candidates.length - 1) / 2 : ℕ) : ℚ) := by
  have hkeys : keysOf (fromkeys candidates 0) = candidates := by
    rw [keysOf_fromkeys, pyDedup_eq_self hnd]
  have he : borda_count rankings candidates
      = rankings.foldl
          (fun scores r =>
            r.rankings.enum.foldl (bordaStep candidates.length ((fun _ => (1:ℚ)) r)) scores)
          (fromkeys candidates 0) := rfl
  rw [he, sumValues_bordaOuter candidates.length (fun _ => (1:ℚ)) rankings
    (fromkeys candidates 0) (by rw [hkeys]; exact hnd)
    (fun r hr pc hpc => by
      rw [hkeys]
      exact (hperm r hr).mem_iff.mp (mem_of_mem_enum hpc))]
  rw [sumValues_fromkeys_zero, zero_add]
  have hper : ∀ r ∈ rankings,
      ((r.rankings.enum.map (fun pc => bordaVal candidates.length pc * (1:ℚ))).sum)
        = ((candidates.length * (candidates.length - 1) / 2 : ℕ) : ℚ) := by
    intro r hr
    have hmul : (r.rankings.enum.map (fun pc => bordaVal candidates.length pc * (1:ℚ)))
        = r.rankings.enum.map (bordaVal candidates.length) := by
      apply List.map_congr_left
      intro pc _
      rw [mul_one]
    rw [hmul]
    have hcomp : r.rankings.enum.map (bordaVal candidates.length)
        = (r.rankings.enum.map Prod.fst).map
            (fun p : ℕ => (((candidates.length : ℤ) - 1 - (p : ℤ) : ℤ) : ℚ)) := by
      rw [List.map_map]
      rfl
    rw [hcomp, List.enum_map_fst, (hperm r hr).length_eq, range_val_sum]
  calc ((rankings.map (fun r =>
          ((r.rankings.enum.map (fun pc => bordaVal candidates.length pc * (1:ℚ))).sum))).sum)
      = ((rankings.map (fun _ =>
          ((candidates.length * (candidates.length - 1) / 2 : ℕ) : ℚ))).sum) := by
        apply congrArg List.sum
        apply List.map_congr_left
        intro r hr
        exact hper r hr
    _ = (rankings.length : ℚ)
          * ((candidates.length * (candidates.length - 1) / 2 : ℕ) : ℚ) :=
        sum_map_constant rankings _

/-- Witness for C3 at a concrete input: two full rankings of three
distinct candidates total `2 * 3`. -/
theorem borda_total_witness :
    sumValues (borda_count
      [⟨"1", "a", ["x", "y", "z"], 1⟩, ⟨"2", "b", ["z", "y", "x"], 1⟩] ["x", "y", "z"])
      = (2 : ℚ) * ((3 : ℕ) : ℚ) := by
  have h := borda_total
    [⟨"1", "a", ["x", "y", "z"], 1⟩, ⟨"2", "b", ["z", "y", "x"], 1⟩] ["x", "y", "z"]
    (by decide) (by decide)
  simpa using h

/-! ## C7: totality and division guards -/

/-- C7: the ratio computations are guarded: pairwise agreement is 0
when there are no comparable pairs, and `diversity_score` is 0 with
fewer than two rankings or with no judge pair to average over (never a
division by zero); with all inputs embedded as total functions, every
core function returns a numeric result on every well-typed input. -/
theorem core_division_guards :
    (∀ (r1 r2 : Ranking) (candidates : List String),
        (agreementCounts r1 r2 candidates).2 = 0 →
        calculate_pairwise_agreement r1 r2 candidates = 0)
    ∧ (∀ (rankings : List Ranking) (candidates : List String),
        rankings.length < 2 → diversity_score rankings candidates = 0)
    ∧ (∀ (rankings : List Ranking) (candidates : List String),
        upairs (judgesOf rankings) = [] → diversity_score rankings candidates = 0) := by
  refine ⟨?_, ?_, ?_⟩
  · intro r1 r2 candidates h
    simp [calculate_pairwise_agreement, h]
  · intro rankings candidates h
    unfold diversity_score
    rw [if_pos h]
  · intro rankings candidates h
    unfold diversity_score
    by_cases h2 : rankings.length < 2
    · rw [if_pos h2]
    · rw [if_neg h2]
      simp only [h, List.length_nil]
      simp

/-- Witness for C7 at concrete degenerate inputs: empty orders give no
comparable pair, an empty ranking list is below the length guard, and
two rankings by the same judge leave no judge pair. -/
theorem core_division_guards_witness :
    calculate_pairwise_agreement ⟨"1", "a", [], 1⟩ ⟨"2", "b", [], 1⟩ ["x", "y"] = 0
    ∧ diversity_score [] ["x"] = 0
    ∧ diversity_score [⟨"1", "a", ["x"], 1⟩, ⟨"2", "a", ["x"], 1⟩] ["x"] = 0 :=
  ⟨core_division_guards.1 ⟨"1", "a", [], 1⟩ ⟨"2", "b", [], 1⟩ ["x", "y"] (by decide),
   core_division_guards.2.1 [] ["x"] (by decide),
   core_division_guards.2.2 [⟨"1", "a", ["x"], 1⟩, ⟨"2", "a", ["x"], 1⟩] ["x"] (by decide)⟩

/-! ## Copeland machinery (C4, C10) -/

theorem cpp_eq_countP (rankings : List Ranking) (c1 c2 : String) :
    count_pairwise_preferences rankings c1 c2
      = (rankings.countP (fun r => placedBefore r c1 c2),
         rankings.countP (fun r => placedBefore r c2 c1)) := by
  have hgen : ∀ (l : List Ranking) (acc : Nat × Nat),
      l.foldl (fun acc r =>
        if c1 ∈ r.rankings ∧ c2 ∈ r.rankings then
          if r.rankings.indexOf c1 < r.rankings.indexOf c2 then (acc.1 + 1, acc.2)
          else if r.rankings.indexOf c2 < r.rankings.indexOf c1 then (acc.1, acc.2 + 1)
          else acc
        else acc) acc
      = (acc.1 + l.countP (fun r => placedBefore r c1 c2),
         acc.2 + l.countP (fun r => placedBefore r c2 c1)) := by
    intro l
    induction l with
    | nil => intro acc; simp
    | cons r t ih =>
      intro acc
      rw [List.foldl_cons, ih, List.countP_cons, List.countP_cons]
      by_cases hmem : c1 ∈ r.rankings ∧ c2 ∈ r.rankings
      · by_cases h12 : r.rankings.indexOf c1 < r.rankings.indexOf c2
        · have hb1 : placedBefore r c1 c2 = true := by
            simp [placedBefore, hmem.1, hmem.2, h12]
          have hb2 : placedBefore r c2 c1 = false := by
            simp [placedBefore, hmem.1, hmem.2]
            omega
          rw [if_pos hmem, if_pos h12, hb1, hb2]
          simp
          omega
        · by_cases h21 : r.rankings.indexOf c2 < r.rankings.indexOf c1
          · have hb1 : placedBefore r c1 c2 = false := by
              simp [placedBefore, hmem.1, hmem.2]
              omega
            have hb2 : placedBefore r c2 c1 = true := by
              simp [placedBefore, hmem.1, hmem.2, h21]
            rw [if_pos hmem, if_neg h12, if_pos h21, hb1, hb2]
            simp
            omega
          · have hb1 : placedBefore r c1 c2 = false := by
              simp [placedBefore, hmem.1, hmem.2]
              omega
            have hb2 : placedBefore r c2 c1 = false := by
              simp [placedBefore, hmem.1, hmem.2]
              omega
            rw [if_pos hmem, if_neg h12, if_neg h21, hb1, hb2]
            simp
      · have hb1 : placedBefore r c1 c2 = false := by
          simp only [placedBefore, Bool.and_eq_false_iff]
          rcases Decidable.not_and_iff_or_not.mp hmem with h | h
          · left; left; simp [h]
          · left; right; simp [h]
        have hb2 : placedBefore r c2 c1 = false := by
          simp only [placedBefore, Bool.and_eq_false_iff]
          rcases Decidable.not_and_iff_or_not.mp hmem with h | h
          · left; right; simp [h]
          · left; left; simp [h]
        rw [if_neg hmem, hb1, hb2]
        simp
  unfold count_pairwise_preferences
  rw [hgen]
  simp

theorem countP_disjoint_le {α : Type} (p q : α → Bool) :
    ∀ l : List α, (∀ x ∈ l, ¬ (p x = true ∧ q x = true)) →
      l.countP p + l.countP q ≤ l.length := by
  intro l
  induction l with
  | nil => intro _; simp
  | cons a t ih =>
    intro hd
    rw [List.countP_cons, List.countP_cons, List.length_cons]
    have ht := ih (fun x hx => hd x (List.mem_cons_of_mem a hx))
    have ha := hd a (List.mem_cons_self a t)
    by_cases hp : p a = true
    · have hq : ¬ q a = true := fun hq => ha ⟨hp, hq⟩
      rw [if_pos hp, if_neg hq]
      omega
    · by_cases hq : q a = true
      · rw [if_neg hp, if_pos hq]
        omega
      · rw [if_neg hp, if_neg hq]
        omega

/-- Per-key contribution of one `_award_pairwise_points` call. -/
def awardContrib (c1 c2 : String) (a b : Nat) (c : String) : ℚ :=
  if a > b then (if c1 = c then 1 else 0)
  else if b > a then (if c2 = c then 1 else 0)
  else (if c1 = c then 1/2 else 0) + (if c2 = c then 1/2 else 0)

theorem keysOf_award (wins : List (String × ℚ)) (c1 c2 : String) (a b : Nat) :
    keysOf (award_pairwise_points wins c1 c2 a b) = keysOf wins := by
  unfold award_pairwise_points
  by_cases h1 : a > b
  · rw [if_pos h1, keysOf_updAdd]
  · rw [if_neg h1]
    by_cases h2 : b > a
    · rw [if_pos h2, keysOf_updAdd]
    · rw [if_neg h2, keysOf_updAdd, keysOf_updAdd]

theorem getD_updAdd_key (wins : List (String × ℚ)) (k : String) (x : ℚ)
    (hk : k ∈ keysOf wins) (c : String) :
    getD (updAdd wins k x) c = getD wins c + (if k = c then x else 0) := by
  by_cases h : k = c
  · subst h
    rw [getD_updAdd_self, containsKey_iff.mpr hk, if_pos rfl]
    simp
  · have hne : c ≠ k := fun e => h e.symm
    rw [getD_updAdd_ne _ _ hne, if_neg h, add_zero]

theorem getD_award (wins : List (String × ℚ)) (c1 c2 : String) (a b : Nat)
    (h1 : c1 ∈ keysOf wins) (h2 : c2 ∈ keysOf wins) (c : String) :
    getD (award_pairwise_points wins c1 c2 a b) c
      = getD wins c + awardContrib c1 c2 a b c := by
  unfold award_pairwise_points awardContrib
  by_cases hab : a > b
  · rw [if_pos hab, if_pos hab, getD_updAdd_key wins c1 1 h1 c]
  · rw [if_neg hab, if_neg hab]
    by_cases hba : b > a
    · rw [if_pos hba, if_pos hba, getD_updAdd_key wins c2 1 h2 c]
    · rw [if_neg hba, if_neg hba]
      have h1' : c1 ∈ keysOf (updAdd wins c1 (1/2)) := by rw [keysOf_updAdd]; exact h1
      have h2' : c2 ∈ keysOf (updAdd wins c1 (1/2)) := by rw [keysOf_updAdd]; exact h2
      rw [getD_updAdd_key _ c2 _ h2' c, getD_updAdd_key wins c1 _ h1 c]
      ring

theorem getD_copeland_fold (rankings : List Ranking) :
    ∀ (ps : List (String × String)) (wins : List (String × ℚ)) (c : String),
      (∀ p ∈ ps, p.1 ∈ keysOf wins ∧ p.2 ∈ keysOf wins) →
      getD (ps.foldl (fun wins p =>
          let counts := count_pairwise_preferences rankings p.1 p.2
          award_pairwise_points wins p.1 p.2 counts.1 counts.2) wins) c
        = getD wins c
          + ((ps.map (fun p =>
              awardContrib p.1 p.2 (count_pairwise_preferences rankings p.1 p.2).1
                (count_pairwise_preferences rankings p.1 p.2).2 c)).sum) := by
  intro ps
  induction ps with
  | nil => intro wins c _; simp
  | cons p t ih =>
    intro wins c hall
    have hp := hall p (List.mem_cons_self p t)
    rw [List.foldl_cons]
    have hkeys : keysOf (award_pairwise_points wins p.1 p.2
        (count_pairwise_preferences rankings p.1 p.2).1
        (count_pairwise_preferences rankings p.1 p.2).2) = keysOf wins :=
      keysOf_award wins p.1 p.2 _ _
    rw [ih _ c (fun q hq => by
      rw [hkeys]
      exact hall q (List.mem_cons_of_mem p hq))]
    rw [getD_award wins p.1 p.2 _ _ hp.1 hp.2 c, List.map_cons, List.sum_cons]
    ring

theorem awardContrib_le_indicator (c1 c2 : String) (a b : Nat) (c : String)
    (hne : c1 ≠ c2) :
    awardContrib c1 c2 a b c ≤ (if c1 = c ∨ c2 = c then (1:ℚ) else 0) := by
  unfold awardContrib
  by_cases hab : a > b
  · rw [if_pos hab]
    by_cases h1 : c1 = c
    · simp [h1]
    · by_cases h2 : c2 = c <;> simp [h1, h2]
  · rw [if_neg hab]
    by_cases hba : b > a
    · rw [if_pos hba]
      by_cases h2 : c2 = c
      · simp [h2]
      · by_cases h1 : c1 = c <;> simp [h1, h2]
    · rw [if_neg hba]
      by_cases h1 : c1 = c
      · have h2 : ¬ c2 = c := fun e => hne (h1.trans e.symm)
        simp [h1, h2]
        norm_num
      · by_cases h2 : c2 = c
        · simp [h1, h2]
          norm_num
        · simp [h1, h2]

theorem awardContrib_not_mem (c1 c2 : String) (a b : Nat) (c : String)
    (h1 : c1 ≠ c) (h2 : c2 ≠ c) : awardContrib c1 c2 a b c = 0 := by
  unfold awardContrib
  by_cases hab : a > b
  · simp [hab, h1]
  · by_cases hba : b > a <;> simp [hab, hba, h1, h2]

theorem sum_indicator_mem (c : String) :
    ∀ (l : List String), l.Nodup → c ∈ l →
      ((l.map (fun y => if y = c then (1:ℚ) else 0)).sum) = 1 := by
  intro l
  induction l with
  | nil => intro _ h; cases h
  | cons x t ih =>
    intro hnd hc
    rw [List.nodup_cons] at hnd
    rw [List.map_cons, List.sum_cons]
    rcases List.mem_cons.mp hc with h | h
    · subst h
      have hz : ((t.map (fun y => if y = c then (1:ℚ) else 0)).sum) = 0 := by
        apply List.sum_eq_zero
        intro x hx
        rcases List.mem_map.mp hx with ⟨y, hy, he⟩
        have hyc : ¬ y = c := fun e => hnd.1 (e ▸ hy)
        rw [← he, if_neg hyc]
      rw [hz, if_pos rfl]
      norm_num
    · have hxc : ¬ x = c := fun e => hnd.1 (e ▸ h)
      rw [if_neg hxc, ih hnd.2 h]
      norm_num

theorem sum_indicator_upairs (c : String) :
    ∀ (cs : List String), cs.Nodup → c ∈ cs →
      (((upairs cs).map (fun p => if p.1 = c ∨ p.2 = c then (1:ℚ) else 0)).sum)
        = (cs.length : ℚ) - 1 := by
  intro cs
  induction cs with
  | nil => intro _ h; cases h
  | cons x t ih =>
    intro hnd hc
    rw [List.nodup_cons] at hnd
    have hexp : upairs (x :: t) = t.map (fun y => (x, y)) ++ upairs t := rfl
    rw [hexp, List.map_append, List.sum_append]
    rcases List.mem_cons.mp hc with h | h
    · subst h
      have hfirst : (((t.map (fun y => (c, y))).map
          (fun p : String × String => if p.1 = c ∨ p.2 = c then (1:ℚ) else 0)).sum)
          = (t.length : ℚ) := by
        rw [List.map_map]
        have hone : ((t.map (fun y => if (c, y).1 = c ∨ (c, y).2 = c then (1:ℚ) else 0)).sum)
            = ((t.map (fun _ => (1:ℚ))).sum) := by
          apply congrArg List.sum
          apply List.map_congr_left
          intro y _
          simp
        have hcomp : (fun p : String × String => if p.1 = c ∨ p.2 = c then (1:ℚ) else 0)
            ∘ (fun y => (c, y)) = fun y => if (c, y).1 = c ∨ (c, y).2 = c then (1:ℚ) else 0 :=
          rfl
        rw [hcomp, hone, sum_map_constant, mul_one]
      have hsecond : (((upairs t).map
          (fun p : String × String => if p.1 = c ∨ p.2 = c then (1:ℚ) else 0)).sum) = 0 := by
        apply List.sum_eq_zero
        intro v hv
        rcases List.mem_map.mp hv with ⟨p, hp, he⟩
        have hmem := mem_upairs hp
        have h1 : ¬ p.1 = c := fun e => hnd.1 (e ▸ hmem.1)
        have h2 : ¬ p.2 = c := fun e => hnd.1 (e ▸ hmem.2)
        rw [← he, if_neg (by tauto)]
      rw [hfirst, hsecond, add_zero, List.length_cons]
      push_cast
      ring
    · have hxc : ¬ x = c := fun e => hnd.1 (e ▸ h)
      have hfirst : (((t.map (fun y => (x, y))).map
          (fun p : String × String => if p.1 = c ∨ p.2 = c then (1:ℚ) else 0)).sum)
          = 1 := by
        rw [List.map_map]
        have hcomp : (fun p : String × String => if p.1 = c ∨ p.2 = c then (1:ℚ) else 0)
            ∘ (fun y => (x, y)) = fun y => if (x, y).1 = c ∨ (x, y).2 = c then (1:ℚ) else 0 :=
          rfl
        rw [hcomp]
        have : (t.map (fun y => if (x, y).1 = c ∨ (x, y).2 = c then (1:ℚ) else 0))
            = (t.map (fun y => if y = c then (1:ℚ) else 0)) := by
          apply List.map_congr_left
          intro y _
          simp [hxc]
        rw [this]
        exact sum_indicator_mem c t hnd.2 h
      rw [hfirst, ih hnd.2 h, List.length_cons]
      push_cast
      ring

theorem keysOf_copeland (rankings : List Ranking) (candidates : List String) :
    keysOf (copeland_score rankings candidates) = pyDedup candidates := by
  unfold copeland_score
  have hgen : ∀ (ps : List (String × String)) (wins : List (String × ℚ)),
      keysOf (ps.foldl (fun wins p =>
        let counts := count_pairwise_preferences rankings p.1 p.2
        award_pairwise_points wins p.1 p.2 counts.1 counts.2) wins) = keysOf wins := by
    intro ps
    induction ps with
    | nil => intro wins; rfl
    | cons p t ih =>
      intro wins
      rw [List.foldl_cons, ih, keysOf_award]
  rw [hgen, keysOf_fromkeys]

/-- C4: with a duplicate-free candidate list, no Copeland score
exceeds `n - 1`; a candidate placed strictly before every other
candidate by a strict majority of the preferences scores exactly
`n - 1`; and a tied pairwise comparison (any equal counts, including
0-0) awards half a point to each side. -/
theorem copeland_bound (rankings : List Ranking) (candidates : List String)
    (hnd : candidates.Nodup) :
    (∀ kv ∈ copeland_score rankings candidates, kv.2 ≤ (candidates.length : ℚ) - 1)
    ∧ (∀ c ∈ candidates,
        (∀ c2 ∈ candidates, c2 ≠ c →
          2 * (rankings.countP (fun r => placedBefore r c c2)) > rankings.length) →
        getD (copeland_score rankings candidates) c = (candidates.length : ℚ) - 1)
    ∧ (∀ (wins : List (String × ℚ)) (c1 c2 : String) (t : Nat),
        award_pairwise_points wins c1 c2 t t = updAdd (updAdd wins c1 (1/2)) c2 (1/2)) := by
  have hkeys : keysOf (fromkeys candidates 0) = candidates := by
    rw [keysOf_fromkeys, pyDedup_eq_self hnd]
  have hexp : copeland_score rankings candidates
      = (upairs candidates).foldl (fun wins p =>
          let counts := count_pairwise_preferences rankings p.1 p.2
          award_pairwise_points wins p.1 p.2 counts.1 counts.2)
          (fromkeys candidates 0) := rfl
  have hallkeys : ∀ p ∈ upairs candidates,
      p.1 ∈ keysOf (fromkeys candidates 0) ∧ p.2 ∈ keysOf (fromkeys candidates 0) := by
    intro p hp
    rw [hkeys]
    exact mem_upairs hp
  have hchar : ∀ c : String,
      getD (copeland_score rankings candidates) c
        = (((upairs candidates).map (fun p =>
            awardContrib p.1 p.2 (count_pairwise_preferences rankings p.1 p.2).1
              (count_pairwise_preferences rankings p.1 p.2).2 c)).sum) := by
    intro c
    rw [hexp, getD_copeland_fold rankings (upairs candidates) (fromkeys candidates 0) c
      hallkeys, getD_fromkeys_zero, zero_add]
  refine ⟨?_, ?_, ?_⟩
  · intro kv hkv
    have hkeynd : (keysOf (copeland_score rankings candidates)).Nodup := by
      rw [keysOf_copeland]
      exact nodup_pyDedup
    have hval : getD (copeland_score rankings candidates) kv.1 = kv.2 :=
      getD_of_mem hkeynd hkv
    have hkmem : kv.1 ∈ candidates := by
      have : kv.1 ∈ keysOf (copeland_score rankings candidates) :=
        List.mem_map_of_mem Prod.fst hkv
      rw [keysOf_copeland] at this
      exact mem_pyDedup.mp this
    rw [← hval, hchar kv.1]
    calc (((upairs candidates).map (fun p =>
            awardContrib p.1 p.2 (count_pairwise_preferences rankings p.1 p.2).1
              (count_pairwise_preferences rankings p.1 p.2).2 kv.1)).sum)
        ≤ (((upairs candidates).map
            (fun p => if p.1 = kv.1 ∨ p.2 = kv.1 then (1:ℚ) else 0)).sum) := by
          apply List.sum_le_sum
          intro p hp
          exact awardContrib_le_indicator p.1 p.2 _ _ kv.1 (ne_of_mem_upairs hnd hp)
      _ = (candidates.length : ℚ) - 1 := sum_indicator_upairs kv.1 candidates hnd hkmem
  · intro c hc hmaj
    rw [hchar c]
    have hcongr : ((upairs candidates).map (fun p =>
          awardContrib p.1 p.2 (count_pairwise_preferences rankings p.1 p.2).1
            (count_pairwise_preferences rankings p.1 p.2).2 c))
        = ((upairs candidates).map
            (fun p => if p.1 = c ∨ p.2 = c then (1:ℚ) else 0)) := by
      apply List.map_congr_left
      intro p hp
      have hne := ne_of_mem_upairs hnd hp
      have hmem := mem_upairs hp
      have hdisj : ∀ c2 : String,
          rankings.countP (fun r => placedBefore r c c2)
            + rankings.countP (fun r => placedBefore r c2 c) ≤ rankings.length := by
        intro c2
        apply countP_disjoint_le
        intro r _ hboth
        have h1 := hboth.1
        have h2 := hboth.2
        simp only [placedBefore, Bool.and_eq_true, decide_eq_true_eq] at h1 h2
        omega
      by_cases h1 : p.1 = c
      · have h2ne : p.2 ≠ c := fun e => hne (h1.trans e.symm)
        have hcount := cpp_eq_countP rankings p.1 p.2
        have hm := hmaj p.2 hmem.2 h2ne
        have hwin : (count_pairwise_preferences rankings p.1 p.2).1
            > (count_pairwise_preferences rankings p.1 p.2).2 := by
          rw [hcount]
          simp only
          rw [h1]
          have := hdisj p.2
          omega
        unfold awardContrib
        rw [if_pos hwin, if_pos h1, if_pos (Or.inl h1)]
      · by_cases h2 : p.2 = c
        · have hcount := cpp_eq_countP rankings p.1 p.2
          have hm := hmaj p.1 hmem.1 (fun e => hne (e.trans h2.symm))
          have hlose : (count_pairwise_preferences rankings p.1 p.2).2
              > (count_pairwise_preferences rankings p.1 p.2).1 := by
            rw [hcount]
            simp only
            rw [h2]
            have := hdisj p.1
            omega
          unfold awardContrib
          rw [if_neg (by omega), if_pos hlose, if_pos h2, if_pos (Or.inr h2)]
        · rw [awardContrib_not_mem p.1 p.2 _ _ c h1 h2, if_neg (by tauto)]
    rw [hcongr]
    exact sum_indicator_upairs c candidates hnd hc
  · intro wins c1 c2 t
    unfold award_pairwise_points
    simp

/-- Witness for C4 at a concrete input: with three candidates and a
judge majority placing `"x"` first everywhere, `"x"` scores 2. -/
theorem copeland_bound_witness :
    (∀ kv ∈ copeland_score
        [⟨"1", "a", ["x", "y", "z"], 1⟩, ⟨"2", "b", ["x", "z", "y"], 1⟩] ["x", "y", "z"],
      kv.2 ≤ ((3:ℚ)) - 1)
    ∧ getD (copeland_score
        [⟨"1", "a", ["x", "y", "z"], 1⟩, ⟨"2", "b", ["x", "z", "y"], 1⟩] ["x", "y", "z"]) "x"
      = ((3:ℚ)) - 1 := by
  have h := copeland_bound
    [⟨"1", "a", ["x", "y", "z"], 1⟩, ⟨"2", "b", ["x", "z", "y"], 1⟩] ["x", "y", "z"]
    (by decide)
  refine ⟨fun kv hkv => by simpa using h.1 kv hkv, ?_⟩
  have h2 := h.2.1 "x" (by decide) (by decide)
  simpa using h2

/-! ## C10: Copeland total -/

theorem sumValues_award (wins : List (String × ℚ)) (c1 c2 : String) (a b : Nat)
    (hnd : (keysOf wins).Nodup) (h1 : c1 ∈ keysOf wins) (h2 : c2 ∈ keysOf wins) :
    sumValues (award_pairwise_points wins c1 c2 a b) = sumValues wins + 1 := by
  unfold award_pairwise_points
  by_cases hab : a > b
  · rw [if_pos hab, sumValues_updAdd _ hnd h1]
  · rw [if_neg hab]
    by_cases hba : b > a
    · rw [if_pos hba, sumValues_updAdd _ hnd h2]
    · rw [if_neg hba]
      have hnd' : (keysOf (updAdd wins c1 (1/2))).Nodup := by
        rw [keysOf_updAdd]; exact hnd
      have h2' : c2 ∈ keysOf (updAdd wins c1 (1/2)) := by
        rw [keysOf_updAdd]; exact h2
      rw [sumValues_updAdd _ hnd' h2', sumValues_updAdd _ hnd h1]
      ring

/-- C10: with a duplicate-free candidate list of size n, the Copeland
scores always total exactly `n*(n-1)/2`: each unordered pair
distributes one point. -/
theorem copeland_total (rankings : List Ranking) (candidates : List String)
    (hnd : candidates.Nodup) :
    sumValues (copeland_score rankings candidates)
      = ((candidates.length * (candidates.length - 1) / 2 : ℕ) : ℚ) := by
  have hkeys : keysOf (fromkeys candidates 0) = candidates := by
    rw [keysOf_fromkeys, pyDedup_eq_self hnd]
  have hgen : ∀ (ps : List (String × String)) (wins : List (String × ℚ)),
      (keysOf wins).Nodup →
      (∀ p ∈ ps, p.1 ∈ keysOf wins ∧ p.2 ∈ keysOf wins) →
      sumValues (ps.foldl (fun wins p =>
        let counts := count_pairwise_preferences rankings p.1 p.2
        award_pairwise_points wins p.1 p.2 counts.1 counts.2) wins)
      = sumValues wins + (ps.length : ℚ) := by
    intro ps
    induction ps with
    | nil => intro wins _ _; simp
    | cons p t ih =>
      intro wins hwnd hall
      have hp := hall p (List.mem_cons_self p t)
      rw [List.foldl_cons]
      have hkeys2 : keysOf (award_pairwise_points wins p.1 p.2
          (count_pairwise_preferences rankings p.1 p.2).1
          (count_pairwise_preferences rankings p.1 p.2).2) = keysOf wins :=
        keysOf_award wins p.1 p.2 _ _
      rw [ih _ (by rw [hkeys2]; exact hwnd)
        (fun q hq => by rw [hkeys2]; exact hall q (List.mem_cons_of_mem p hq))]
      rw [sumValues_award wins p.1 p.2 _ _ hwnd hp.1 hp.2, List.length_cons]
      push_cast
      ring
  have hexp : copeland_score rankings candidates
      = (upairs candidates).foldl (fun wins p =>
          let counts := count_pairwise_preferences rankings p.1 p.2
          award_pairwise_points wins p.1 p.2 counts.1 counts.2)
          (fromkeys candidates 0) := rfl
  rw [hexp, hgen (upairs candidates) (fromkeys candidates 0)
    (by rw [hkeys]; exact hnd)
    (fun p hp => by rw [hkeys]; exact mem_upairs hp)]
  rw [sumValues_fromkeys_zero, zero_add]
  have hlen := two_mul_length_upairs candidates
  have : (upairs candidates).length = candidates.length * (candidates.length - 1) / 2 := by
    omega
  rw [this]

/-- Witness for C10: three candidates, any rankings, total 3. -/
theorem copeland_total_witness :
    sumValues (copeland_score [⟨"1", "a", ["y"], 1⟩] ["x", "y", "z"]) = ((3 : ℕ) : ℚ) := by
  have h := copeland_total [⟨"1", "a", ["y"], 1⟩] ["x", "y", "z"] (by decide)
  simpa using h

/-! ## Agreement analysis machinery (C5, C6) -/

/-- Comparability of a candidate pair for two rankings (all four
membership tests of `_calculate_pairwise_agreement`). -/
def compP (r1 r2 : Ranking) (p : String × String) : Bool :=
  decide (p.1 ∈ r1.rankings ∧ p.2 ∈ r1.rankings ∧ p.1 ∈ r2.rankings ∧ p.2 ∈ r2.rankings)

/-- Comparable and in agreement on the pair's relative order. -/
def agreeP (r1 r2 : Ranking) (p : String × String) : Bool :=
  compP r1 r2 p &&
    decide (decide (r1.rankings.indexOf p.1 < r1.rankings.indexOf p.2)
      = decide (r2.rankings.indexOf p.1 < r2.rankings.indexOf p.2))

theorem agreementCounts_eq (r1 r2 : Ranking) (candidates : List String) :
    agreementCounts r1 r2 candidates
      = ((upairs candidates).countP (agreeP r1 r2),
         (upairs candidates).countP (compP r1 r2)) := by
  have hgen : ∀ (l : List (String × String)) (acc : Nat × Nat),
      l.foldl (fun acc p =>
        if p.1 ∈ r1.rankings ∧ p.2 ∈ r1.rankings ∧ p.1 ∈ r2.rankings ∧ p.2 ∈ r2.rankings then
          if (decide (r1.rankings.indexOf p.1 < r1.rankings.indexOf p.2)
              = decide (r2.rankings.indexOf p.1 < r2.rankings.indexOf p.2)) then
            (acc.1 + 1, acc.2 + 1)
          else (acc.1, acc.2 + 1)
        else acc) acc
      = (acc.1 + l.countP (agreeP r1 r2), acc.2 + l.countP (compP r1 r2)) := by
    intro l
    induction l with
    | nil => intro acc; simp
    | cons p t ih =>
      intro acc
      rw [List.foldl_cons, ih, List.countP_cons, List.countP_cons]
      by_cases hmem : p.1 ∈ r1.rankings ∧ p.2 ∈ r1.rankings
          ∧ p.1 ∈ r2.rankings ∧ p.2 ∈ r2.rankings
      · have hcomp : compP r1 r2 p = true := decide_eq_true hmem
        by_cases hagree : (decide (r1.rankings.indexOf p.1 < r1.rankings.indexOf p.2)
            = decide (r2.rankings.indexOf p.1 < r2.rankings.indexOf p.2))
        · have hag : agreeP r1 r2 p = true := by
            rw [agreeP, hcomp, decide_eq_true hagree]
            rfl
          rw [if_pos hmem, if_pos hagree, hag, hcomp]
          simp
          omega
        · have hag : agreeP r1 r2 p = false := by
            rw [agreeP, hcomp]
            simp [hagree]
          rw [if_pos hmem, if_neg hagree, hag, hcomp]
          simp
          omega
      · have hcomp : compP r1 r2 p = false := decide_eq_false hmem
        have hag : agreeP r1 r2 p = false := by
          rw [agreeP, hcomp]
          rfl
        rw [if_neg hmem, hag, hcomp]
        simp
  unfold agreementCounts
  rw [hgen]
  simp

theorem compP_symm (r1 r2 : Ranking) (p : String × String) :
    compP r1 r2 p = compP r2 r1 p := by
  unfold compP
  by_cases h : p.1 ∈ r1.rankings ∧ p.2 ∈ r1.rankings ∧ p.1 ∈ r2.rankings ∧ p.2 ∈ r2.rankings
  · rw [decide_eq_true h, decide_eq_true (by tauto)]
  · rw [decide_eq_false h, decide_eq_false (by tauto)]

theorem agreeP_symm (r1 r2 : Ranking) (p : String × String) :
    agreeP r1 r2 p = agreeP r2 r1 p := by
  unfold agreeP
  rw [compP_symm r1 r2 p]
  by_cases h : (decide (r1.rankings.indexOf p.1 < r1.rankings.indexOf p.2)
      = decide (r2.rankings.indexOf p.1 < r2.rankings.indexOf p.2))
  · rw [decide_eq_true h, decide_eq_true h.symm]
  · rw [decide_eq_false h, decide_eq_false (fun e => h e.symm)]

theorem countP_congr_bool {α : Type} (p q : α → Bool) :
    ∀ (l : List α), (∀ a ∈ l, p a = q a) → l.countP p = l.countP q := by
  intro l
  induction l with
  | nil => intro _; rfl
  | cons a t ih =>
    intro h
    rw [List.countP_cons, List.countP_cons, h a (List.mem_cons_self a t),
      ih (fun x hx => h x (List.mem_cons_of_mem a hx))]

theorem countP_le_of_imp {α : Type} (p q : α → Bool) :
    ∀ (l : List α), (∀ a ∈ l, p a = true → q a = true) → l.countP p ≤ l.countP q := by
  intro l
  induction l with
  | nil => intro _; simp
  | cons a t ih =>
    intro h
    rw [List.countP_cons, List.countP_cons]
    have ht := ih (fun x hx => h x (List.mem_cons_of_mem a hx))
    by_cases hp : p a = true
    · rw [if_pos hp, if_pos (h a (List.mem_cons_self a t) hp)]
      omega
    · rw [if_neg hp]
      by_cases hq : q a = true
      · rw [if_pos hq]; omega
      · rw [if_neg hq]; omega

theorem cpa_symm (r1 r2 : Ranking) (candidates : List String) :
    calculate_pairwise_agreement r1 r2 candidates
      = calculate_pairwise_agreement r2 r1 candidates := by
  unfold calculate_pairwise_agreement
  rw [agreementCounts_eq, agreementCounts_eq]
  rw [countP_congr_bool (agreeP r1 r2) (agreeP r2 r1) _ (fun p _ => agreeP_symm r1 r2 p),
    countP_congr_bool (compP r1 r2) (compP r2 r1) _ (fun p _ => compP_symm r1 r2 p)]

theorem cpa_nonneg (r1 r2 : Ranking) (candidates : List String) :
    0 ≤ calculate_pairwise_agreement r1 r2 candidates := by
  unfold calculate_pairwise_agreement
  by_cases h : (agreementCounts r1 r2 candidates).2 > 0
  · rw [if_pos h]
    positivity
  · rw [if_neg h]

theorem cpa_le_one (r1 r2 : Ranking) (candidates : List String) :
    calculate_pairwise_agreement r1 r2 candidates ≤ 1 := by
  unfold calculate_pairwise_agreement
  by_cases h : (agreementCounts r1 r2 candidates).2 > 0
  · rw [if_pos h]
    rw [div_le_one (by positivity)]
    have hle : (agreementCounts r1 r2 candidates).1 ≤ (agreementCounts r1 r2 candidates).2 := by
      rw [agreementCounts_eq]
      apply countP_le_of_imp
      intro p _ hp
      simp only [agreeP, Bool.and_eq_true] at hp
      exact hp.1
    exact_mod_cast hle
  · rw [if_neg h]
    norm_num

/-- With identical orders, every comparable pair agrees, so when at
least one comparable pair exists the agreement ratio is exactly 1. -/
theorem cpa_unanimity (r1 r2 : Ranking) (candidates : List String)
    (hord : r1.rankings = r2.rankings)
    (hpos : 0 < (agreementCounts r1 r2 candidates).2) :
    calculate_pairwise_agreement r1 r2 candidates = 1 := by
  unfold calculate_pairwise_agreement
  rw [if_pos hpos]
  have hcounts : (agreementCounts r1 r2 candidates).1
      = (agreementCounts r1 r2 candidates).2 := by
    rw [agreementCounts_eq]
    apply countP_congr_bool
    intro p _
    unfold agreeP
    rw [hord]
    simp
  rw [hcounts]
  have hne : ((agreementCounts r1 r2 candidates).2 : ℚ) ≠ 0 := by
    exact_mod_cast Nat.pos_iff_ne_zero.mp hpos
  field_simp

/-- The last ranking instance with a given judge name: the final value
written to that judge's row/column of the agreement matrix. -/
def lastWith (l : List Ranking) (j : String) : Option Ranking :=
  match l with
  | [] => none
  | r :: t =>
    match lastWith t j with
    | some x => some x
    | none => if r.judge = j then some r else none

theorem lastWith_mem {j : String} :
    ∀ {l : List Ranking} {r : Ranking}, lastWith l j = some r → r ∈ l ∧ r.judge = j := by
  intro l
  induction l with
  | nil => intro r h; cases h
  | cons r0 t ih =>
    intro r h
    rw [lastWith] at h
    cases ht : lastWith t j with
    | some x =>
      rw [ht] at h
      cases h
      have := ih ht
      exact ⟨List.mem_cons_of_mem r0 this.1, this.2⟩
    | none =>
      rw [ht] at h
      by_cases hj : r0.judge = j
      · rw [if_pos hj] at h
        cases h
        exact ⟨List.mem_cons_self r0 t, hj⟩
      · rw [if_neg hj] at h
        cases h

theorem lastWith_isSome_of_mem {j : String} :
    ∀ {l : List Ranking}, j ∈ l.map Ranking.judge → ∃ r, lastWith l j = some r := by
  intro l
  induction l with
  | nil => intro h; cases h
  | cons r0 t ih =>
    intro h
    rw [lastWith]
    cases ht : lastWith t j with
    | some x => exact ⟨x, rfl⟩
    | none =>
      rw [List.map_cons] at h
      rcases List.mem_cons.mp h with h1 | h1
      · exact ⟨r0, by rw [if_pos h1.symm]⟩
      · rcases ih h1 with ⟨r, hr⟩
        rw [hr] at ht
        cases ht

theorem mem_judgesOf {j : String} {l : List Ranking} :
    j ∈ judgesOf l ↔ j ∈ l.map Ranking.judge := by
  rw [judgesOf, mem_pyDedup]

/-- Last-write-wins characterization of the inner write loop of
`agreement_matrix` (fixed outer ranking `r1`). -/
theorem am_inner_char (candidates : List String) (r1 : Ranking) (j1 j2 : String) :
    ∀ (l : List Ranking) (m : String → String → ℚ),
      (l.foldl (fun m r2 =>
        fun a b => if a = r1.judge ∧ b = r2.judge then cellVal candidates r1 r2
          else m a b) m) j1 j2
      = match lastWith l j2 with
        | some r2 => if j1 = r1.judge then cellVal candidates r1 r2 else m j1 j2
        | none => m j1 j2 := by
  intro l
  induction l with
  | nil => intro m; rfl
  | cons r t ih =>
    intro m
    rw [List.foldl_cons, ih]
    cases ht : lastWith t j2 with
    | some r2 =>
      have hl : lastWith (r :: t) j2 = some r2 := by
        rw [lastWith, ht]
      rw [hl]
      simp only
      by_cases hj : j1 = r1.judge
      · rw [if_pos hj, if_pos hj]
      · rw [if_neg hj, if_neg hj,
          if_neg (fun hand : j1 = r1.judge ∧ j2 = r.judge => hj hand.1)]
    | none =>
      by_cases hr : r.judge = j2
      · have hl : lastWith (r :: t) j2 = some r := by
          rw [lastWith, ht, if_pos hr]
        rw [hl]
        simp only
        by_cases hj : j1 = r1.judge
        · rw [if_pos (And.intro hj hr.symm), if_pos hj]
        · rw [if_neg (fun hand : j1 = r1.judge ∧ j2 = r.judge => hj hand.1), if_neg hj]
      · have hl : lastWith (r :: t) j2 = none := by
          rw [lastWith, ht, if_neg hr]
        rw [hl]
        simp only
        rw [if_neg (fun hand : j1 = r1.judge ∧ j2 = r.judge => hr hand.2.symm)]

/-- Last-write-wins characterization of the full `agreement_matrix`
double loop. -/
theorem am_outer_char (rankings : List Ranking) (candidates : List String)
    (j1 j2 : String) :
    ∀ (l : List Ranking) (m : String → String → ℚ),
      (l.foldl (fun m r1 =>
        rankings.foldl (fun m r2 =>
          fun a b => if a = r1.judge ∧ b = r2.judge then cellVal candidates r1 r2
            else m a b) m) m) j1 j2
      = match lastWith l j1, lastWith rankings j2 with
        | some r1, some r2 => cellVal candidates r1 r2
        | _, _ => m j1 j2 := by
  intro l
  induction l with
  | nil =>
    intro m
    cases lastWith rankings j2 <;> rfl
  | cons r t ih =>
    intro m
    rw [List.foldl_cons, ih, am_inner_char]
    cases ht : lastWith t j1 with
    | some r1 =>
      have hl : lastWith (r :: t) j1 = some r1 := by
        rw [lastWith, ht]
      rw [hl]
      cases hr2 : lastWith rankings j2 with
      | some r2 => rfl
      | none => rfl
    | none =>
      by_cases hr : r.judge = j1
      · have hl : lastWith (r :: t) j1 = some r := by
          rw [lastWith, ht, if_pos hr]
        rw [hl]
        cases hr2 : lastWith rankings j2 with
        | some r2 =>
          simp only
          rw [if_pos hr.symm]
        | none => rfl
      · have hl : lastWith (r :: t) j1 = none := by
          rw [lastWith, ht, if_neg hr]
        rw [hl]
        cases hr2 : lastWith rankings j2 with
        | some r2 =>
          simp only
          rw [if_neg (fun e => hr e.symm)]
        | none => rfl

/-- The value of any agreement-matrix cell: determined by the last
ranking instances carrying the two judge names. -/
theorem agreement_matrix_eq (rankings : List Ranking) (candidates : List String)
    (j1 j2 : String) :
    agreement_matrix rankings candidates j1 j2
      = match lastWith rankings j1, lastWith rankings j2 with
        | some r1, some r2 => cellVal candidates r1 r2
        | _, _ => 0 := by
  have h := am_outer_char rankings candidates j1 j2 rankings (fun _ _ => 0)
  rw [agreement_matrix, h]

theorem cellVal_symm (candidates : List String) (r1 r2 : Ranking) :
    cellVal candidates r1 r2 = cellVal candidates r2 r1 := by
  unfold cellVal
  by_cases h : r1.id = r2.id
  · rw [if_pos h, if_pos h.symm]
  · rw [if_neg h, if_neg (fun e => h e.symm), cpa_symm]

theorem cellVal_nonneg (candidates : List String) (r1 r2 : Ranking) :
    0 ≤ cellVal candidates r1 r2 := by
  unfold cellVal
  by_cases h : r1.id = r2.id
  · rw [if_pos h]; norm_num
  · rw [if_neg h]; exact cpa_nonneg r1 r2 candidates

theorem cellVal_le_one (candidates : List String) (r1 r2 : Ranking) :
    cellVal candidates r1 r2 ≤ 1 := by
  unfold cellVal
  by_cases h : r1.id = r2.id
  · rw [if_pos h]
  · rw [if_neg h]; exact cpa_le_one r1 r2 candidates

/-- C5: for judge names present in the matrix, the agreement matrix is
populated symmetrically, all entries lie in [0,1], and every diagonal
entry is exactly 1 — also when one judge name occurs on several
distinct ranking instances. -/
theorem agreement_matrix_spec (rankings : List Ranking) (candidates : List String)
    (j1 j2 : String) (h1 : j1 ∈ judgesOf rankings) (h2 : j2 ∈ judgesOf rankings) :
    agreement_matrix rankings candidates j1 j2 = agreement_matrix rankings candidates j2 j1
    ∧ 0 ≤ agreement_matrix rankings candidates j1 j2
    ∧ agreement_matrix rankings candidates j1 j2 ≤ 1
    ∧ agreement_matrix rankings candidates j1 j1 = 1 := by
  rcases lastWith_isSome_of_mem (mem_judgesOf.mp h1) with ⟨r1, hr1⟩
  rcases lastWith_isSome_of_mem (mem_judgesOf.mp h2) with ⟨r2, hr2⟩
  refine ⟨?_, ?_, ?_, ?_⟩
  · rw [agreement_matrix_eq, agreement_matrix_eq, hr1, hr2]
    simp only
    exact cellVal_symm candidates r1 r2
  · rw [agreement_matrix_eq, hr1, hr2]
    simp only
    exact cellVal_nonneg candidates r1 r2
  · rw [agreement_matrix_eq, hr1, hr2]
    simp only
    exact cellVal_le_one candidates r1 r2
  · rw [agreement_matrix_eq, hr1]
    simp [cellVal]

/-- Witness for C5 at a concrete input where the same judge name
appears on two distinct ranking instances with opposite orders. -/
theorem agreement_matrix_spec_witness :
    agreement_matrix [⟨"1", "a", ["x", "y"], 1⟩, ⟨"2", "a", ["y", "x"], 1⟩,
        ⟨"3", "b", ["x", "y"], 1⟩] ["x", "y"] "a" "b"
      = agreement_matrix [⟨"1", "a", ["x", "y"], 1⟩, ⟨"2", "a", ["y", "x"], 1⟩,
        ⟨"3", "b", ["x", "y"], 1⟩] ["x", "y"] "b" "a"
    ∧ 0 ≤ agreement_matrix [⟨"1", "a", ["x", "y"], 1⟩, ⟨"2", "a", ["y", "x"], 1⟩,
        ⟨"3", "b", ["x", "y"], 1⟩] ["x", "y"] "a" "b"
    ∧ agreement_matrix [⟨"1", "a", ["x", "y"], 1⟩, ⟨"2", "a", ["y", "x"], 1⟩,
        ⟨"3", "b", ["x", "y"], 1⟩] ["x", "y"] "a" "b" ≤ 1
    ∧ agreement_matrix [⟨"1", "a", ["x", "y"], 1⟩, ⟨"2", "a", ["y", "x"], 1⟩,
        ⟨"3", "b", ["x", "y"], 1⟩] ["x", "y"] "a" "a" = 1 :=
  agreement_matrix_spec [⟨"1", "a", ["x", "y"], 1⟩, ⟨"2", "a", ["y", "x"], 1⟩,
    ⟨"3", "b", ["x", "y"], 1⟩] ["x", "y"] "a" "b" (by decide) (by decide)

/-! ## C6: diversity under unanimity -/

theorem exists_upair_of_filter_two (f : String → Bool) :
    ∀ (l : List String), 2 ≤ (l.filter f).length →
      ∃ q ∈ upairs l, f q.1 = true ∧ f q.2 = true := by
  intro l
  induction l with
  | nil => intro h; simp at h
  | cons x t ih =>
    intro h
    rw [List.filter_cons] at h
    by_cases hx : f x = true
    · rw [if_pos hx, List.length_cons] at h
      have h1 : 1 ≤ (t.filter f).length := by omega
      cases hf : t.filter f with
      | nil => rw [hf] at h1; simp at h1
      | cons y ys =>
        have hy : y ∈ t.filter f := by rw [hf]; exact List.mem_cons_self y ys
        have hy2 := List.mem_filter.mp hy
        refine ⟨(x, y), ?_, hx, hy2.2⟩
        have : (x, y) ∈ t.map (fun z => (x, z)) := List.mem_map_of_mem _ hy2.1
        exact List.mem_append_left _ this
    · rw [if_neg hx] at h
      rcases ih h with ⟨q, hq, hq1, hq2⟩
      exact ⟨q, List.mem_append_right _ hq, hq1, hq2⟩

/-- C6 counterexample: the claim "identical orders imply diversity 0"
is false on the code: two rankings with identical empty orders have no
comparable candidate pair, their mutual agreement is the guarded 0,
and the diversity score is 1. -/
theorem diversity_unanimity_cex :
    ¬ (∀ (rankings : List Ranking) (candidates : List String),
        2 ≤ rankings.length →
        (∀ r1 ∈ rankings, ∀ r2 ∈ rankings, r1.rankings = r2.rankings) →
        diversity_score rankings candidates = 0) := by
  intro hclaim
  have h := hclaim [⟨"1", "a", [], 1⟩, ⟨"2", "b", [], 1⟩] ["x", "y"]
    (by decide) (by decide)
  have hm : agreement_matrix [⟨"1", "a", [], 1⟩, ⟨"2", "b", [], 1⟩] ["x", "y"] "a" "b"
      = 0 := by
    rw [agreement_matrix_eq]
    have h1 : lastWith [⟨"1", "a", [], 1⟩, ⟨"2", "b", [], 1⟩] "a"
        = some ⟨"1", "a", [], 1⟩ := rfl
    have h2 : lastWith [⟨"1", "a", [], 1⟩, ⟨"2", "b", [], 1⟩] "b"
        = some ⟨"2", "b", [], 1⟩ := rfl
    rw [h1, h2]
    simp only
    unfold cellVal
    rw [if_neg (by decide)]
    unfold calculate_pairwise_agreement
    have hcounts : agreementCounts ⟨"1", "a", [], 1⟩ ⟨"2", "b", [], 1⟩ ["x", "y"]
        = (0, 0) := rfl
    rw [hcounts]
    simp
  have hval : diversity_score [⟨"1", "a", [], 1⟩, ⟨"2", "b", [], 1⟩] ["x", "y"] = 1 := by
    unfold diversity_score
    rw [if_neg (by decide)]
    simp only
    have hj : judgesOf [⟨"1", "a", [], 1⟩, ⟨"2", "b", [], 1⟩] = ["a", "b"] := rfl
    rw [hj]
    have hu : upairs ["a", "b"] = [("a", "b")] := rfl
    rw [hu]
    rw [if_neg (by decide)]
    rw [List.map_cons, List.map_nil, List.sum_cons, List.sum_nil]
    simp only
    rw [hm]
    norm_num
  rw [hval] at h
  exact one_ne_zero h

/-- C6 amended: with at least two rankings whose orders are all the
same list `o`, `diversity_score` is exactly 0 provided at least two
positions of the candidate list hold candidates appearing in `o`
(so at least one comparable pair exists; without that proviso the
guarded agreement of 0 makes the score 1, see the counterexample). -/
theorem diversity_unanimity (rankings : List Ranking) (candidates : List String)
    (o : List String) (hlen : 2 ≤ rankings.length)
    (hord : ∀ r ∈ rankings, r.rankings = o)
    (hcomp : 2 ≤ (candidates.filter (fun c => decide (c ∈ o))).length) :
    diversity_score rankings candidates = 0 := by
  unfold diversity_score
  rw [if_neg (by omega)]
  simp only
  by_cases hcount : (upairs (judgesOf rankings)).length = 0
  · rw [if_pos hcount]
  · rw [if_neg hcount]
    have hcell : ∀ p ∈ upairs (judgesOf rankings),
        agreement_matrix rankings candidates p.1 p.2 = 1 := by
      intro p hp
      have h1 := (mem_upairs hp).1
      have h2 := (mem_upairs hp).2
      obtain ⟨r1, hr1⟩ := lastWith_isSome_of_mem (mem_judgesOf.mp h1)
      obtain ⟨r2, hr2⟩ := lastWith_isSome_of_mem (mem_judgesOf.mp h2)
      rw [agreement_matrix_eq, hr1, hr2]
      simp only
      unfold cellVal
      by_cases hid : r1.id = r2.id
      · rw [if_pos hid]
      · rw [if_neg hid]
        have ho1 : r1.rankings = o := hord r1 (lastWith_mem hr1).1
        have ho2 : r2.rankings = o := hord r2 (lastWith_mem hr2).1
        apply cpa_unanimity
        · rw [ho1, ho2]
        · rw [agreementCounts_eq]
          simp only
          rw [List.countP_pos_iff]
          obtain ⟨q, hq, hq1, hq2⟩ :=
            exists_upair_of_filter_two (fun c => decide (c ∈ o)) candidates hcomp
          refine ⟨q, hq, ?_⟩
          unfold compP
          rw [ho1, ho2]
          apply decide_eq_true
          have hq1' : q.1 ∈ o := of_decide_eq_true hq1
          have hq2' : q.2 ∈ o := of_decide_eq_true hq2
          exact ⟨hq1', hq2', hq1', hq2'⟩
    have htotal : (((upairs (judgesOf rankings)).map
        (fun p => agreement_matrix rankings candidates p.1 p.2)).sum)
        = ((upairs (judgesOf rankings)).length : ℚ) := by
      have hc : ((upairs (judgesOf rankings)).map
          (fun p => agreement_matrix rankings candidates p.1 p.2))
          = ((upairs (judgesOf rankings)).map (fun _ => (1:ℚ))) := by
        apply List.map_congr_left
        intro p hp
        exact hcell p hp
      rw [hc, sum_map_constant, mul_one]
    rw [htotal]
    have hne : (((upairs (judgesOf rankings)).length : ℕ) : ℚ) ≠ 0 := by
      exact_mod_cast hcount
    rw [div_self hne]
    norm_num

/-- Witness for the amended C6: two rankings with the same full order
over two candidates give diversity 0. -/
theorem diversity_unanimity_witness :
    diversity_score [⟨"1", "a", ["x", "y"], 1⟩, ⟨"2", "b", ["x", "y"], 1⟩] ["x", "y"] = 0 :=
  diversity_unanimity [⟨"1", "a", ["x", "y"], 1⟩, ⟨"2", "b", ["x", "y"], 1⟩] ["x", "y"]
    ["x", "y"] (by decide) (by decide) (by decide)

/-! ## C2: score-map key sets and unmentioned candidates -/

theorem getD_map_fun (f : String → ℚ) (k : String) :
    ∀ (l : List String), getD (l.map (fun c => (c, f c))) k = if k ∈ l then f k else 0 := by
  intro l
  induction l with
  | nil => simp [getD]
  | cons c rest ih =>
    rw [List.map_cons, getD_cons, ih]
    by_cases h : c = k
    · subst h
      simp
    · have h2 : ¬ k = c := fun e => h e.symm
      simp [h, h2]

theorem keysOf_plurality (rankings : List Ranking) (candidates : List String) :
    keysOf (plurality rankings candidates) = pyDedup candidates := by
  unfold keysOf plurality
  rw [List.map_map]
  have : (Prod.fst ∘ fun c : String =>
      (c, ((rankings.filterMap (fun r => r.rankings.head?)).count c : ℚ))) = id := rfl
  rw [this, List.map_id]

theorem keysOf_borda_count (rankings : List Ranking) (candidates : List String) :
    keysOf (borda_count rankings candidates) = pyDedup candidates := by
  have he : borda_count rankings candidates
      = rankings.foldl
          (fun scores r =>
            r.rankings.enum.foldl (bordaStep candidates.length ((fun _ => (1:ℚ)) r)) scores)
          (fromkeys candidates 0) := rfl
  rw [he, keysOf_bordaOuter, keysOf_fromkeys]

theorem keysOf_weighted_borda (rankings : List Ranking) (candidates : List String) :
    keysOf (weighted_borda rankings candidates) = pyDedup candidates := by
  have he : weighted_borda rankings candidates
      = rankings.foldl
          (fun scores r =>
            r.rankings.enum.foldl (bordaStep candidates.length (Ranking.confidence r)) scores)
          (fromkeys candidates 0) := rfl
  rw [he, keysOf_bordaOuter, keysOf_fromkeys]

theorem keysOf_lockFold :
    ∀ (edges : List (String × String)) (s : List (String × ℚ)),
      keysOf (edges.foldl (fun scores e => updAdd scores e.1 1) s) = keysOf s := by
  intro edges
  induction edges with
  | nil => intro s; rfl
  | cons e t ih =>
    intro s
    rw [List.foldl_cons, ih, keysOf_updAdd]

theorem keysOf_ranked_pairs (rankings : List Ranking) (candidates : List String) :
    keysOf (ranked_pairs rankings candidates) = pyDedup candidates := by
  unfold ranked_pairs
  rw [keysOf_lockFold, keysOf_fromkeys]

theorem getD_plurality_unmentioned (rankings : List Ranking) (candidates : List String)
    (c : String) (hno : ∀ r ∈ rankings, c ∉ r.rankings) :
    getD (plurality rankings candidates) c = 0 := by
  unfold plurality
  rw [getD_map_fun]
  have hcount : (rankings.filterMap (fun r => r.rankings.head?)).count c = 0 := by
    rw [List.count_eq_zero]
    intro hmem
    rcases List.mem_filterMap.mp hmem with ⟨r, hr, hh⟩
    exact hno r hr (List.mem_of_mem_head? hh)
  rw [hcount]
  by_cases h : c ∈ pyDedup candidates <;> simp [h]

theorem bordaContrib_unmentioned (n : Nat) (order : List String) (c : String)
    (hno : c ∉ order) : bordaContrib n order.enum c = 0 := by
  unfold bordaContrib
  have hfil : order.enum.filter (fun pc => pc.2 = c) = [] := by
    rw [List.filter_eq_nil_iff]
    intro pc hpc
    simp only [decide_eq_true_eq]
    intro he
    exact hno (he ▸ mem_of_mem_enum hpc)
  rw [hfil]
  rfl

theorem getD_borda_unmentioned (rankings : List Ranking) (candidates : List String)
    (c : String) (hno : ∀ r ∈ rankings, c ∉ r.rankings) :
    getD (borda_count rankings candidates) c = 0 := by
  rw [getD_borda_count]
  by_cases h : c ∈ candidates
  · rw [if_pos h]
    apply List.sum_eq_zero
    intro x hx
    rcases List.mem_map.mp hx with ⟨r, hr, he⟩
    rw [← he, bordaContrib_unmentioned candidates.length r.rankings c (hno r hr)]
  · rw [if_neg h]

theorem getD_weighted_unmentioned (rankings : List Ranking) (candidates : List String)
    (c : String) (hno : ∀ r ∈ rankings, c ∉ r.rankings) :
    getD (weighted_borda rankings candidates) c = 0 := by
  rw [getD_weighted_borda]
  by_cases h : c ∈ candidates
  · rw [if_pos h]
    apply List.sum_eq_zero
    intro x hx
    rcases List.mem_map.mp hx with ⟨r, hr, he⟩
    rw [← he, bordaContrib_unmentioned candidates.length r.rankings c (hno r hr), zero_mul]
  · rw [if_neg h]

theorem mem_insertPairDesc {a x : String × String × Int} :
    ∀ {l : List (String × String × Int)}, a ∈ insertPairDesc x l → a = x ∨ a ∈ l := by
  intro l
  induction l with
  | nil =>
    intro h
    rcases List.mem_singleton.mp h with h1
    exact Or.inl h1
  | cons y ys ih =>
    intro h
    rw [insertPairDesc] at h
    by_cases hc : y.2.2 ≤ x.2.2
    · rw [if_pos hc] at h
      rcases List.mem_cons.mp h with h1 | h1
      · exact Or.inl h1
      · exact Or.inr h1
    · rw [if_neg hc] at h
      rcases List.mem_cons.mp h with h1 | h1
      · exact Or.inr (h1 ▸ List.mem_cons_self y ys)
      · rcases ih h1 with h2 | h2
        · exact Or.inl h2
        · exact Or.inr (List.mem_cons_of_mem y h2)

theorem mem_sortPairsDesc {a : String × String × Int} :
    ∀ {l : List (String × String × Int)}, a ∈ sortPairsDesc l → a ∈ l := by
  intro l
  induction l with
  | nil => intro h; cases h
  | cons x xs ih =>
    intro h
    rw [sortPairsDesc] at h
    rcases mem_insertPairDesc h with h1 | h1
    · exact h1 ▸ List.mem_cons_self x xs
    · exact List.mem_cons_of_mem x (ih h1)

theorem lock_pairs_mem :
    ∀ (ps : List (String × String × Int)) (acc : List (String × String)),
      ∀ e ∈ ps.foldl (fun locked p =>
          if creates_cycle locked p.1 p.2.1 then locked
          else if (p.1, p.2.1) ∈ locked then locked
          else locked ++ [(p.1, p.2.1)]) acc,
        e ∈ acc ∨ ∃ p ∈ ps, e = (p.1, p.2.1) := by
  intro ps
  induction ps with
  | nil => intro acc e he; exact Or.inl he
  | cons p t ih =>
    intro acc e he
    rw [List.foldl_cons] at he
    rcases ih _ e he with h1 | h1
    · by_cases hc : creates_cycle acc p.1 p.2.1
      · rw [if_pos hc] at h1
        exact Or.inl h1
      · rw [if_neg hc] at h1
        by_cases hm : (p.1, p.2.1) ∈ acc
        · rw [if_pos hm] at h1
          exact Or.inl h1
        · rw [if_neg hm] at h1
          rcases List.mem_append.mp h1 with h2 | h2
          · exact Or.inl h2
          · exact Or.inr ⟨p, List.mem_cons_self p t, List.mem_singleton.mp h2⟩
    · rcases h1 with ⟨q, hq, he2⟩
      exact Or.inr ⟨q, List.mem_cons_of_mem p hq, he2⟩

theorem margin_pairs_pos (candidates : List String)
    (pref : List (String × List (String × Nat))) :
    ∀ q ∈ calculate_margin_pairs candidates pref,
      (getPref pref q.2.1 q.1 : Int) < (getPref pref q.1 q.2.1 : Int) := by
  have hgen : ∀ (l : List (String × String)) (acc : List (String × String × Int)),
      (∀ q ∈ acc, (getPref pref q.2.1 q.1 : Int) < (getPref pref q.1 q.2.1 : Int)) →
      ∀ q ∈ l.foldl (fun pairs p =>
          let margin : Int := (getPref pref p.1 p.2 : Int) - (getPref pref p.2 p.1 : Int)
          if margin > 0 then pairs ++ [(p.1, p.2, margin)]
          else if margin < 0 then pairs ++ [(p.2, p.1, -margin)]
          else pairs) acc,
        (getPref pref q.2.1 q.1 : Int) < (getPref pref q.1 q.2.1 : Int) := by
    intro l
    induction l with
    | nil => intro acc hacc q hq; exact hacc q hq
    | cons p t ih =>
      intro acc hacc q hq
      rw [List.foldl_cons] at hq
      refine ih _ ?_ q hq
      intro q' hq'
      by_cases hpos : ((getPref pref p.1 p.2 : Int) - (getPref pref p.2 p.1 : Int)) > 0
      · simp only [if_pos hpos] at hq'
        rcases List.mem_append.mp hq' with h1 | h1
        · exact hacc q' h1
        · rw [List.mem_singleton.mp h1]
          simp only
          omega
      · simp only [if_neg hpos] at hq'
        by_cases hneg : ((getPref pref p.1 p.2 : Int) - (getPref pref p.2 p.1 : Int)) < 0
        · simp only [if_pos hneg] at hq'
          rcases List.mem_append.mp hq' with h1 | h1
          · exact hacc q' h1
          · rw [List.mem_singleton.mp h1]
            simp only
            omega
        · simp only [if_neg hneg] at hq'
          exact hacc q' hq'
  intro q hq
  exact hgen (upairs candidates) [] (fun q' hq' => absurd hq' (List.not_mem_nil q')) q hq

theorem getPref_const_zero (x : String) :
    ∀ (l : List (String × Nat)), (∀ kv ∈ l, kv.2 = 0) →
      (match l.find? (fun kv => kv.1 = x) with
       | some kv => kv.2
       | none => 0) = 0 := by
  intro l
  induction l with
  | nil => intro _; rfl
  | cons kv t ih =>
    intro hz
    by_cases h : kv.1 = x
    · rw [List.find?_cons_of_pos _ (by simp [h])]
      exact hz kv (List.mem_cons_self kv t)
    · rw [List.find?_cons_of_neg _ (by simp [h])]
      exact ih (fun kv' hkv' => hz kv' (List.mem_cons_of_mem kv hkv'))

theorem getPref_init_zero (l1 l2 : List String) (c x : String) :
    getPref (l1.map (fun c1 => (c1, l2.map (fun c2 => (c2, 0))))) c x = 0 := by
  unfold getPref
  cases hf : (l1.map (fun c1 => (c1, l2.map (fun c2 => (c2, 0))))).find?
      (fun row => row.1 = c) with
  | none => rfl
  | some row =>
    have hrow := List.find?_some hf
    have hmem := List.mem_of_find?_eq_some hf
    rcases List.mem_map.mp hmem with ⟨c1, _, he⟩
    rw [← he]
    simp only
    apply getPref_const_zero
    intro kv hkv
    rcases List.mem_map.mp hkv with ⟨c2, _, he2⟩
    rw [← he2]

theorem getPref_bumpPref_ne_row (p : List (String × List (String × Nat)))
    (q1 q2 c x : String) (h : q1 ≠ c) :
    getPref (bumpPref p q1 q2) c x = getPref p c x := by
  unfold getPref bumpPref
  induction p with
  | nil => rfl
  | cons row t ih =>
    by_cases hr : row.1 = q1
    · have hrc : ¬ row.1 = c := fun e => h (hr ▸ e ▸ rfl)
      rw [List.map_cons, if_pos hr]
      rw [List.find?_cons_of_neg _ (by simp [hrc]), List.find?_cons_of_neg _ (by simp [hrc])]
      exact ih
    · rw [List.map_cons, if_neg hr]
      by_cases hrc : row.1 = c
      · rw [List.find?_cons_of_pos _ (by simp [hrc]), List.find?_cons_of_pos _ (by simp [hrc])]
      · rw [List.find?_cons_of_neg _ (by simp [hrc]), List.find?_cons_of_neg _ (by simp [hrc])]
        exact ih

theorem getPref_build_zero (rankings : List Ranking) (candidates : List String)
    (c : String) (hno : ∀ r ∈ rankings, c ∉ r.rankings) (x : String) :
    getPref (build_preference_matrix rankings candidates) c x = 0 := by
  unfold build_preference_matrix
  have hgen : ∀ (l : List Ranking) (p : List (String × List (String × Nat))),
      (∀ r ∈ l, c ∉ r.rankings) →
      (∀ y, getPref p c y = 0) →
      ∀ y, getPref (l.foldl (fun pref r =>
        (upairs r.rankings).foldl (fun p q =>
          if prefHasPair p q.1 q.2 then bumpPref p q.1 q.2 else p) pref) p) c y = 0 := by
    intro l
    induction l with
    | nil => intro p _ hp y; exact hp y
    | cons r t ih =>
      intro p hl hp y
      rw [List.foldl_cons]
      refine ih _ (fun r' hr' => hl r' (List.mem_cons_of_mem r hr')) ?_ y
      have hinner : ∀ (pl : List (String × String)) (pp : List (String × List (String × Nat))),
          (∀ q ∈ pl, q.1 ≠ c) → (∀ y, getPref pp c y = 0) →
          ∀ y, getPref (pl.foldl (fun p q =>
            if prefHasPair p q.1 q.2 then bumpPref p q.1 q.2 else p) pp) c y = 0 := by
        intro pl
        induction pl with
        | nil => intro pp _ hpp y; exact hpp y
        | cons q tq ihq =>
          intro pp hql hpp y
          rw [List.foldl_cons]
          refine ihq _ (fun q' hq' => hql q' (List.mem_cons_of_mem q hq')) ?_ y
          intro y2
          by_cases hhp : prefHasPair pp q.1 q.2
          · rw [if_pos hhp]
            rw [getPref_bumpPref_ne_row pp q.1 q.2 c y2 (hql q (List.mem_cons_self q tq))]
            exact hpp y2
          · rw [if_neg hhp]
            exact hpp y2
      refine hinner (upairs r.rankings) p ?_ hp
      intro q hq
      intro he
      exact hl r (List.mem_cons_self r t) (he ▸ (mem_upairs hq).1)
  exact hgen rankings _ hno (fun y => getPref_init_zero _ _ c y) x

theorem getD_ranked_pairs_unmentioned (rankings : List Ranking) (candidates : List String)
    (c : String) (hno : ∀ r ∈ rankings, c ∉ r.rankings) :
    getD (ranked_pairs rankings candidates) c = 0 := by
  have hnowin : ∀ e ∈ locked_edges rankings candidates, e.1 ≠ c := by
    intro e he
    unfold locked_edges lock_pairs_without_cycles at he
    rcases lock_pairs_mem _ [] e he with h1 | h1
    · cases h1
    · rcases h1 with ⟨p, hp, he2⟩
      have hmem := mem_sortPairsDesc hp
      have hpos := margin_pairs_pos candidates (build_preference_matrix rankings candidates)
        p hmem
      intro hec
      have hzero := getPref_build_zero rankings candidates c hno p.2.1
      rw [he2] at hec
      simp only at hec
      rw [hec] at hpos
      rw [hzero] at hpos
      omega
  unfold ranked_pairs
  have hgen : ∀ (edges : List (String × String)) (s : List (String × ℚ)),
      (∀ e ∈ edges, e.1 ≠ c) →
      getD (edges.foldl (fun scores e => updAdd scores e.1 1) s) c = getD s c := by
    intro edges
    induction edges with
    | nil => intro s _; rfl
    | cons e t ih =>
      intro s hall
      rw [List.foldl_cons, ih _ (fun e' he' => hall e' (List.mem_cons_of_mem e he'))]
      exact getD_updAdd_ne s 1 (fun he => (hall e (List.mem_cons_self e t)) he.symm)
  rw [hgen _ _ hnowin, getD_fromkeys_zero]

/-- C2 counterexample: the claim that an unmentioned candidate scores
0 fails for `copeland_score`: with no rankings at all, every pairwise
comparison is a 0-0 tie and each candidate of `["A","B"]` receives
half a point. -/
theorem score_zero_unmentioned_cex :
    getD (copeland_score [] ["A", "B"]) "B" = 1/2 ∧ (1/2 : ℚ) ≠ 0 := by
  constructor
  · have hall : ∀ p ∈ upairs ["A", "B"],
        p.1 ∈ keysOf (fromkeys ["A", "B"] 0) ∧ p.2 ∈ keysOf (fromkeys ["A", "B"] 0) := by
      intro p hp
      have hu : upairs ["A", "B"] = [("A", "B")] := rfl
      rw [hu] at hp
      rcases List.mem_singleton.mp hp with h
      subst h
      constructor
      · rw [keysOf_fromkeys]
        decide
      · rw [keysOf_fromkeys]
        decide
    have hexp : copeland_score [] ["A", "B"]
        = (upairs ["A", "B"]).foldl (fun wins p =>
            let counts := count_pairwise_preferences [] p.1 p.2
            award_pairwise_points wins p.1 p.2 counts.1 counts.2)
            (fromkeys ["A", "B"] 0) := rfl
    rw [hexp, getD_copeland_fold [] (upairs ["A", "B"]) (fromkeys ["A", "B"] 0) "B" hall]
    rw [getD_fromkeys_zero, zero_add]
    have hu : upairs ["A", "B"] = [("A", "B")] := rfl
    rw [hu, List.map_cons, List.map_nil, List.sum_cons, List.sum_nil]
    have hcpp : count_pairwise_preferences [] "A" "B" = (0, 0) := rfl
    rw [hcpp]
    unfold awardContrib
    rw [if_neg (by omega), if_neg (by omega), if_neg (by decide), if_pos rfl]
    norm_num
  · norm_num

/-- C2 amended: for each of the five aggregation functions the key set
of the returned score map is exactly the deduplicated candidate list
(so scores accumulated for identifiers outside the candidate set are
dropped and every candidate has an entry); a candidate mentioned in no
ranking scores 0 under `plurality`, `borda_count`, `weighted_borda`
and `ranked_pairs` — under `copeland_score` it instead collects half a
point per pairwise tie (see the counterexample). -/
theorem score_map_completeness (rankings : List Ranking) (candidates : List String) :
    keysOf (plurality rankings candidates) = pyDedup candidates
    ∧ keysOf (borda_count rankings candidates) = pyDedup candidates
    ∧ keysOf (weighted_borda rankings candidates) = pyDedup candidates
    ∧ keysOf (copeland_score rankings candidates) = pyDedup candidates
    ∧ keysOf (ranked_pairs rankings candidates) = pyDedup candidates
    ∧ (∀ c, c ∈ pyDedup candidates ↔ c ∈ candidates)
    ∧ (∀ c ∈ candidates, (∀ r ∈ rankings, c ∉ r.rankings) →
        getD (plurality rankings candidates) c = 0
        ∧ getD (borda_count rankings candidates) c = 0
        ∧ getD (weighted_borda rankings candidates) c = 0
        ∧ getD (ranked_pairs rankings candidates) c = 0) := by
  refine ⟨keysOf_plurality rankings candidates, keysOf_borda_count rankings candidates,
    keysOf_weighted_borda rankings candidates, keysOf_copeland rankings candidates,
    keysOf_ranked_pairs rankings candidates, fun c => mem_pyDedup, ?_⟩
  intro c _ hno
  exact ⟨getD_plurality_unmentioned rankings candidates c hno,
    getD_borda_unmentioned rankings candidates c hno,
    getD_weighted_unmentioned rankings candidates c hno,
    getD_ranked_pairs_unmentioned rankings candidates c hno⟩

/-- Witness for the amended C2 at a concrete input: candidate `"B"` is
mentioned by no ranking, has an entry, and scores 0 under the four
zero-defaulting methods. -/
theorem score_map_completeness_witness :
    getD (plurality [⟨"1", "a", ["A"], 1⟩] ["A", "B"]) "B" = 0
    ∧ getD (borda_count [⟨"1", "a", ["A"], 1⟩] ["A", "B"]) "B" = 0
    ∧ getD (weighted_borda [⟨"1", "a", ["A"], 1⟩] ["A", "B"]) "B" = 0
    ∧ getD (ranked_pairs [⟨"1", "a", ["A"], 1⟩] ["A", "B"]) "B" = 0 :=
  (score_map_completeness [⟨"1", "a", ["A"], 1⟩] ["A", "B"]).2.2.2.2.2.2 "B"
    (by decide) (by decide)

/-! ## C1: the locked-edge digraph is acyclic -/

theorem reach_trans {S : List (String × String)} {a b c : String}
    (h1 : Reach S a b) : Reach S b c → Reach S a c := by
  induction h1 with
  | refl a => exact fun h2 => h2
  | step hmem _ ih => exact fun h2 => Reach.step hmem (ih h2)

theorem mem_succsOf {locked : List (String × String)} {c y : String} :
    y ∈ succsOf locked c ↔ (c, y) ∈ locked := by
  unfold succsOf
  constructor
  · intro h
    rcases List.mem_map.mp h with ⟨e, he, hey⟩
    have hf := List.mem_filter.mp he
    have he1 : e.1 = c := by simpa using hf.2
    have heq : e = (c, y) := by
      cases e
      simp only at he1 hey
      rw [he1, hey]
    exact heq ▸ hf.1
  · intro h
    apply List.mem_map.mpr
    exact ⟨(c, y), List.mem_filter.mpr ⟨h, by simp⟩, rfl⟩

theorem bfs_sound (winner : String) (locked : List (String × String)) :
    ∀ (fuel : Nat) (visited queue : List String),
      bfsAux winner locked fuel visited queue = true →
      ∃ x ∈ queue, Reach locked x winner := by
  intro fuel
  induction fuel with
  | zero =>
    intro visited queue h
    simp [bfsAux] at h
  | succ fuel ih =>
    intro visited queue h
    cases queue with
    | nil => simp [bfsAux] at h
    | cons current rest =>
      rw [bfsAux] at h
      by_cases hwin : current = winner
      · exact ⟨current, List.mem_cons_self current rest, hwin ▸ Reach.refl current⟩
      · rw [if_neg hwin] at h
        by_cases hvis : current ∈ visited
        · rw [if_pos hvis] at h
          rcases ih visited rest h with ⟨x, hx, hr⟩
          exact ⟨x, List.mem_cons_of_mem current hx, hr⟩
        · rw [if_neg hvis] at h
          rcases ih (current :: visited) (rest ++ succsOf locked current) h with ⟨x, hx, hr⟩
          rcases List.mem_append.mp hx with h1 | h1
          · exact ⟨x, List.mem_cons_of_mem current h1, hr⟩
          · have hedge : (current, x) ∈ locked := mem_succsOf.mp h1
            exact ⟨current, List.mem_cons_self current rest, Reach.step hedge hr⟩

theorem no_reach_of_closed {locked : List (String × String)} {V : List String}
    {winner : String}
    (hcl : ∀ v ∈ V, ∀ y, (v, y) ∈ locked → y ∈ V) (hw : winner ∉ V) :
    ∀ x ∈ V, ¬ Reach locked x winner := by
  have key : ∀ x y, Reach locked x y → x ∈ V → y ∈ V := by
    intro x y hr
    induction hr with
    | refl a => exact fun h => h
    | step hmem _ ih => exact fun hx => ih (hcl _ hx _ hmem)
  intro x hx hr
  exact hw (key x winner hr hx)

theorem length_filter_mono {p q : String → Bool} (himp : ∀ x, q x = true → p x = true) :
    ∀ l : List String, (l.filter q).length ≤ (l.filter p).length := by
  intro l
  induction l with
  | nil => simp
  | cons x t ih =>
    rw [List.filter_cons, List.filter_cons]
    by_cases hq : q x = true
    · rw [if_pos hq, if_pos (himp x hq), List.length_cons, List.length_cons]
      omega
    · rw [if_neg hq]
      by_cases hp : p x = true
      · rw [if_pos hp, List.length_cons]
        omega
      · rw [if_neg hp]
        exact ih

theorem length_filter_lt {p q : String → Bool} (himp : ∀ x, q x = true → p x = true)
    {a : String} (hap : p a = true) (haq : q a = false) :
    ∀ l : List String, a ∈ l → (l.filter q).length < (l.filter p).length := by
  intro l
  induction l with
  | nil => intro h; cases h
  | cons x t ih =>
    intro hmem
    rw [List.filter_cons, List.filter_cons]
    rcases List.mem_cons.mp hmem with hax | hat
    · subst hax
      rw [if_pos hap, if_neg (by rw [haq]; exact fun h => absurd h (by simp)),
        List.length_cons]
      have := length_filter_mono himp t
      omega
    · by_cases hq : q x = true
      · rw [if_pos hq, if_pos (himp x hq), List.length_cons, List.length_cons]
        have := ih hat
        omega
      · rw [if_neg hq]
        by_cases hp : p x = true
        · rw [if_pos hp, List.length_cons]
          have := ih hat
          omega
        · rw [if_neg hp]
          exact ih hat

theorem length_succsOf_le (locked : List (String × String)) (c : String) :
    (succsOf locked c).length ≤ locked.length := by
  unfold succsOf
  rw [List.length_map]
  exact List.length_filter_le _ _

theorem bfs_complete (winner : String) (locked : List (String × String))
    (U : List String) (hU : ∀ e ∈ locked, e.2 ∈ U) :
    ∀ (fuel : Nat) (visited queue : List String),
      (U.filter (fun u => decide (u ∉ visited))).length * (locked.length + 1)
        + queue.length < fuel →
      (∀ x ∈ queue, x ∈ U) →
      (∀ v ∈ visited, ∀ y, (v, y) ∈ locked → y ∈ visited ∨ y ∈ queue) →
      winner ∉ visited →
      bfsAux winner locked fuel visited queue = false →
      ∀ x, (x ∈ visited ∨ x ∈ queue) → ¬ Reach locked x winner := by
  intro fuel
  induction fuel with
  | zero =>
    intro visited queue hfuel
    exact absurd hfuel (by omega)
  | succ fuel ih =>
    intro visited queue hfuel hq hcl hw hbfs x hx
    cases queue with
    | nil =>
      rcases hx with hxv | hxq
      · refine no_reach_of_closed ?_ hw x hxv
        intro v hv y hy
        rcases hcl v hv y hy with h | h
        · exact h
        · cases h
      · cases hxq
    | cons current rest =>
      rw [bfsAux] at hbfs
      by_cases hwin : current = winner
      · rw [if_pos hwin] at hbfs
        cases hbfs
      · rw [if_neg hwin] at hbfs
        by_cases hvis : current ∈ visited
        · rw [if_pos hvis] at hbfs
          have hrec := ih visited rest
            (by
              rw [List.length_cons] at hfuel
              omega)
            (fun y hy => hq y (List.mem_cons_of_mem current hy))
            (fun v hv y hy => by
              rcases hcl v hv y hy with h | h
              · exact Or.inl h
              · rcases List.mem_cons.mp h with h2 | h2
                · exact Or.inl (h2 ▸ hvis)
                · exact Or.inr h2)
            hw hbfs
          rcases hx with hxv | hxq
          · exact hrec x (Or.inl hxv)
          · rcases List.mem_cons.mp hxq with hxc | hxr
            · exact hxc ▸ hrec current (Or.inl hvis)
            · exact hrec x (Or.inr hxr)
        · rw [if_neg hvis] at hbfs
          have hcu : current ∈ U := hq current (List.mem_cons_self current rest)
          have hstrict : (U.filter (fun u => decide (u ∉ current :: visited))).length
              < (U.filter (fun u => decide (u ∉ visited))).length := by
            apply length_filter_lt (p := fun u => decide (u ∉ visited))
              (q := fun u => decide (u ∉ current :: visited))
              (fun y hy => by
                simp only [decide_eq_true_eq] at hy ⊢
                intro hyv
                exact hy (List.mem_cons_of_mem current hyv))
              (by simp [hvis])
              (by simp)
              U hcu
          have hsucc := length_succsOf_le locked current
          have hfuel' : (U.filter (fun u => decide (u ∉ current :: visited))).length
              * (locked.length + 1)
              + (rest ++ succsOf locked current).length < fuel := by
            rw [List.length_append]
            have hmul0 := Nat.mul_le_mul_right (locked.length + 1) hstrict
            rw [Nat.succ_mul] at hmul0
            have hmul : (U.filter (fun u => decide (u ∉ current :: visited))).length
                * (locked.length + 1) + (locked.length + 1)
                ≤ (U.filter (fun u => decide (u ∉ visited))).length
                  * (locked.length + 1) := hmul0
            rw [List.length_cons] at hfuel
            generalize hA : (U.filter (fun u => decide (u ∉ current :: visited))).length
              * (locked.length + 1) = A at hmul ⊢
            generalize hB : (U.filter (fun u => decide (u ∉ visited))).length
              * (locked.length + 1) = B at hmul hfuel
            omega
          have hrec := ih (current :: visited) (rest ++ succsOf locked current)
            hfuel'
            (fun y hy => by
              rcases List.mem_append.mp hy with h1 | h1
              · exact hq y (List.mem_cons_of_mem current h1)
              · exact hU _ (mem_succsOf.mp h1))
            (fun v hv y hy => by
              rcases List.mem_cons.mp hv with hvc | hvv
              · subst hvc
                exact Or.inr (List.mem_append_right rest (mem_succsOf.mpr hy))
              · rcases hcl v hvv y hy with h | h
                · exact Or.inl (List.mem_cons_of_mem current h)
                · rcases List.mem_cons.mp h with h2 | h2
                  · exact Or.inl (h2 ▸ List.mem_cons_self current visited)
                  · exact Or.inr (List.mem_append_left _ h2))
            (fun hmem => by
              rcases List.mem_cons.mp hmem with h1 | h1
              · exact hwin h1.symm
              · exact hw h1)
            hbfs
          rcases hx with hxv | hxq
          · exact hrec x (Or.inl (List.mem_cons_of_mem current hxv))
          · rcases List.mem_cons.mp hxq with hxc | hxr
            · exact hxc ▸ hrec current (Or.inl (List.mem_cons_self current visited))
            · exact hrec x (Or.inr (List.mem_append_left _ hxr))

theorem creates_cycle_iff (locked : List (String × String)) (winner loser : String) :
    creates_cycle locked winner loser = true ↔ Reach locked loser winner := by
  constructor
  · intro h
    rcases bfs_sound winner locked _ [] [loser] h with ⟨x, hx, hr⟩
    rcases List.mem_singleton.mp hx with h1
    exact h1 ▸ hr
  · intro hr
    by_contra hfalse
    have hb : bfsAux winner locked ((locked.length + 1) * (locked.length + 1) + 2)
        [] [loser] = false := by
      cases hbv : bfsAux winner locked ((locked.length + 1) * (locked.length + 1) + 2)
          [] [loser] with
      | false => rfl
      | true => exact absurd hbv hfalse
    have hU : ∀ e ∈ locked, e.2 ∈ loser :: locked.map Prod.snd := fun e he =>
      List.mem_cons_of_mem loser (List.mem_map_of_mem Prod.snd he)
    have hfilter : (loser :: locked.map Prod.snd).filter
        (fun u => decide (u ∉ ([] : List String))) = loser :: locked.map Prod.snd :=
      List.filter_eq_self.mpr (fun x _ => by simp)
    have hfuel : ((loser :: locked.map Prod.snd).filter
          (fun u => decide (u ∉ ([] : List String)))).length * (locked.length + 1)
        + ([loser] : List String).length
        < (locked.length + 1) * (locked.length + 1) + 2 := by
      rw [hfilter, List.length_cons, List.length_map, List.length_singleton]
      omega
    exact bfs_complete winner locked (loser :: locked.map Prod.snd) hU
      ((locked.length + 1) * (locked.length + 1) + 2) [] [loser]
      hfuel
      (fun x hx => by
        rcases List.mem_singleton.mp hx with h1
        exact h1 ▸ List.mem_cons_self loser _)
      (fun v hv => by cases hv)
      (by simp)
      hb loser (Or.inr (List.mem_singleton.mpr rfl)) hr

theorem reach_cons_decomp {w l : String} {S : List (String × String)} :
    ∀ {a b : String}, Reach ((w, l) :: S) a b →
      Reach S a b ∨ (Reach ((w, l) :: S) a w ∧ Reach S l b) := by
  intro a b h
  induction h with
  | refl a => exact Or.inl (Reach.refl a)
  | step hmem _ ih =>
    rcases List.mem_cons.mp hmem with he | hS
    · rw [Prod.mk.injEq] at he
      rcases he with ⟨ha, hx⟩
      subst ha
      subst hx
      rcases ih with h1 | ⟨_, h3⟩
      · exact Or.inr ⟨Reach.refl _, h1⟩
      · exact Or.inr ⟨Reach.refl _, h3⟩
    · rcases ih with h1 | ⟨h2, h3⟩
      · exact Or.inl (Reach.step hS h1)
      · exact Or.inr ⟨Reach.step (List.mem_cons_of_mem _ hS) h2, h3⟩

theorem acyclic_nil : Acyclic [] := by
  rintro ⟨a, b, hmem, _⟩
  cases hmem

theorem acyclic_insert {S : List (String × String)} {w l : String}
    (hac : Acyclic S) (hnr : ¬ Reach S l w) : Acyclic ((w, l) :: S) := by
  rintro ⟨a, b, hmem, hreach⟩
  rcases List.mem_cons.mp hmem with he | hS
  · have ha : a = w := congrArg Prod.fst he
    have hb : b = l := congrArg Prod.snd he
    subst ha
    subst hb
    rcases reach_cons_decomp hreach with h1 | ⟨_, h3⟩
    · exact hnr h1
    · exact hnr h3
  · rcases reach_cons_decomp hreach with h1 | ⟨h2, h3⟩
    · exact hac ⟨a, b, hS, h1⟩
    · have hlb : Reach S l b := reach_trans h3 (Reach.step hS (Reach.refl b))
      rcases reach_cons_decomp h2 with h4 | ⟨_, h6⟩
      · exact hnr (reach_trans hlb h4)
      · exact hnr h6

theorem reach_mono {S S' : List (String × String)}
    (hsub : ∀ e : String × String, e ∈ S → e ∈ S') {a b : String} :
    Reach S a b → Reach S' a b := by
  intro h
  induction h with
  | refl a => exact Reach.refl a
  | step hmem _ ih => exact Reach.step (hsub _ hmem) ih

theorem acyclic_append {S : List (String × String)} {w l : String}
    (hac : Acyclic S) (hnr : ¬ Reach S l w) : Acyclic (S ++ [(w, l)]) := by
  have hcons := acyclic_insert hac hnr
  rintro ⟨a, b, hmem, hreach⟩
  apply hcons
  refine ⟨a, b, ?_, ?_⟩
  · rcases List.mem_append.mp hmem with h | h
    · exact List.mem_cons_of_mem _ h
    · exact (List.mem_singleton.mp h) ▸ List.mem_cons_self _ _
  · refine reach_mono ?_ hreach
    intro e he
    rcases List.mem_append.mp he with h | h
    · exact List.mem_cons_of_mem _ h
    · exact (List.mem_singleton.mp h) ▸ List.mem_cons_self _ _

theorem lock_fold_acyclic :
    ∀ (ps : List (String × String × Int)) (acc : List (String × String)),
      Acyclic acc →
      Acyclic (ps.foldl (fun locked p =>
        if creates_cycle locked p.1 p.2.1 then locked
        else if (p.1, p.2.1) ∈ locked then locked
        else locked ++ [(p.1, p.2.1)]) acc) := by
  intro ps
  induction ps with
  | nil => intro acc hacc; exact hacc
  | cons p t ih =>
    intro acc hacc
    rw [List.foldl_cons]
    by_cases hcc : creates_cycle acc p.1 p.2.1 = true
    · rw [if_pos hcc]
      exact ih acc hacc
    · rw [if_neg hcc]
      by_cases hm : (p.1, p.2.1) ∈ acc
      · rw [if_pos hm]
        exact ih acc hacc
      · rw [if_neg hm]
        refine ih _ (acyclic_append hacc ?_)
        intro hr
        exact hcc ((creates_cycle_iff acc p.1 p.2.1).mpr hr)

/-- C1: for every input list of rankings and every candidate list, the
locked-edge set built by `ranked_pairs` through
`lock_pairs_without_cycles` contains no directed cycle — cyclic
majority inputs included, since the statement is fully universal. -/
theorem ranked_pairs_locked_acyclic (rankings : List Ranking) (candidates : List String) :
    Acyclic (locked_edges rankings candidates) := by
  unfold locked_edges lock_pairs_without_cycles
  exact lock_fold_acyclic _ [] acyclic_nil

/-- C1 at the adversarial cyclic-majority input of the claim: three
rankings `A>B>C`, `B>C>A`, `C>A>B` still yield an acyclic locked set. -/
theorem ranked_pairs_locked_acyclic_witness :
    Acyclic (locked_edges
      [⟨"1", "a", ["A", "B", "C"], 1⟩, ⟨"2", "b", ["B", "C", "A"], 1⟩,
       ⟨"3", "c", ["C", "A", "B"], 1⟩] ["A", "B", "C"]) :=
  ranked_pairs_locked_acyclic
    [⟨"1", "a", ["A", "B", "C"], 1⟩, ⟨"2", "b", ["B", "C", "A"], 1⟩,
     ⟨"3", "c", ["C", "A", "B"], 1⟩] ["A", "B", "C"]

end Deliberate
